import Mathlib

/-!
# Verification of the abs-bigfinish crawler against its specification

Shallow embedding of the three Python source files (`scraper.py`,
`web-api.py`, `outdated_scraper-api.py`) of the abs-bigfinish repository.
Pure string heuristics are translated to executable Lean functions over
`List Char`; the sqlite tables become association lists; fallible Python
code (uncaught exceptions) is modelled with `Except`; external
collaborators (the HTTP client, BeautifulSoup, fuzzywuzzy) are modelled
as function parameters or as query-level abstractions of the parsed
document, exactly at the interface the source consumes them.
-/

namespace BigFinish

/-! ## Python string primitives -/

/-- The whitespace characters recognised by Python's `str.strip` and by the
regex class `\s` for the ASCII inputs this program manipulates. -/
def pyIsSpace (c : Char) : Bool :=
  c = ' ' || c = '\t' || c = '\n' || c = '\r' || c = '\x0b' || c = '\x0c'

/-- ASCII letter, the regex class `[a-zA-Z]`. -/
def isAsciiAlpha (c : Char) : Bool :=
  (97 ≤ c.toNat && c.toNat ≤ 122) || (65 ≤ c.toNat && c.toNat ≤ 90)

/-- ASCII digit, the regex class `\d` on ASCII input. -/
def isAsciiDigit (c : Char) : Bool :=
  48 ≤ c.toNat && c.toNat ≤ 57

/-- Strip whitespace from the end of a character list. -/
def stripEnd (cs : List Char) : List Char :=
  (cs.reverse.dropWhile pyIsSpace).reverse

/-- Python `str.strip()`: remove leading and trailing whitespace. -/
def stripChars (cs : List Char) : List Char :=
  stripEnd (cs.dropWhile pyIsSpace)

/-- Python `str.strip()` on `String`. -/
def pyStrip (s : String) : String := ⟨stripChars s.toList⟩

/-- Python `str.lower()` (ASCII case fold, sufficient for this program's data). -/
def pyLower (s : String) : String := ⟨s.toList.map Char.toLower⟩

/-- Occurrence of `needle` as a contiguous run inside `hay`:
Python's `needle in hay` on strings. -/
def listInfix (needle : List Char) : List Char → Bool
  | [] => needle.isEmpty
  | c :: t => needle.isPrefixOf (c :: t) || listInfix needle t

/-- Python `needle in hay` for strings. -/
def strContains (hay needle : String) : Bool := listInfix needle.toList hay.toList

/-- Helper for `pySplit`: scan for the (non-empty) separator `sh :: st`,
accumulating the current fragment in reverse in `acc`. The scan consumes at
least one character per step, so with `fuel` at least the input length the
fuel-exhaustion branch is unreachable (structural recursion on `fuel` keeps
the definition kernel-computable). -/
def splitAux (sh : Char) (st : List Char) : Nat → List Char → List Char →
    List (List Char)
  | _, [], acc => [acc.reverse]
  | 0, _ :: _, acc => [acc.reverse]
  | fuel + 1, c :: rest, acc =>
    if (sh :: st).isPrefixOf (c :: rest) then
      acc.reverse :: splitAux sh st fuel (rest.drop st.length) []
    else
      splitAux sh st fuel rest (c :: acc)

/-- Python `s.split(sep)` for a non-empty string separator (the only form the
source uses); for an empty separator Python raises, we return `[s]`
(unreachable at every call site, all separators are non-empty literals). -/
def pySplit (sep s : String) : List String :=
  match sep.toList with
  | [] => [s]
  | h :: t => (splitAux h t s.toList.length s.toList []).map fun l => ⟨l⟩

/-- Digits-and-underscores tail of a Python integer literal:
after a first digit, underscores may appear singly between digits. -/
def digitsCore : List Char → Nat → Option Nat
  | [], acc => some acc
  | '_' :: d :: rest, acc =>
    if isAsciiDigit d then digitsCore rest (acc * 10 + (d.toNat - 48)) else none
  | d :: rest, acc =>
    if isAsciiDigit d then digitsCore rest (acc * 10 + (d.toNat - 48)) else none

/-- Parse a non-empty run of decimal digits (Python `int` body). -/
def digitsToNat? : List Char → Option Nat
  | [] => none
  | d :: rest => if isAsciiDigit d then digitsCore rest (d.toNat - 48) else none

/-- Python `int(s)` on a string: strip, optional sign, decimal digits
(ASCII); `none` models the `ValueError` path. -/
def pyInt (s : String) : Option Int :=
  match stripChars s.toList with
  | '+' :: rest => (digitsToNat? rest).map Int.ofNat
  | '-' :: rest => (digitsToNat? rest).map fun n => -(n : Int)
  | rest => (digitsToNat? rest).map Int.ofNat

/-- Decimal rendering of `n` left-padded with zeros to width `w`
(the `strftime` field formats `%Y`, `%m` used by the source). -/
def padNat (w n : Nat) : String :=
  let s := toString n
  ⟨List.replicate (w - s.length) '0' ++ s.toList⟩

/-! ## DateParser (`scraper.py` lines 145-187) -/

/-- `DateParser.MONTHS`: the fixed 12-entry English month-name table. -/
def MONTHS : List (String × Nat) :=
  [("january", 1), ("february", 2), ("march", 3), ("april", 4),
   ("may", 5), ("june", 6), ("july", 7), ("august", 8),
   ("september", 9), ("october", 10), ("november", 11), ("december", 12)]

/-- Look a lowercased month word up in `MONTHS`. -/
def lookupMonth (m : String) : Option Nat :=
  (MONTHS.find? fun p => p.1 = m).map fun p => p.2

/-- Numeric value of a digit run. -/
def natOfDigits (ds : List Char) : Nat :=
  ds.foldl (fun a c => a * 10 + (c.toNat - 48)) 0

/-- Attempt of the regex `([a-zA-Z]+)\s+(\d{4})` at the current position:
a maximal non-empty letter run, a maximal non-empty whitespace run, then
exactly four digits (nothing is required after them). The maximal runs are
faithful to the greedy quantifiers: the character classes are pairwise
disjoint, so backtracking can never shorten them into a match. -/
def matchMonthYearAt (cs : List Char) : Option (List Char × List Char) :=
  let ls := cs.takeWhile isAsciiAlpha
  if ls.isEmpty then none else
  let r1 := cs.dropWhile isAsciiAlpha
  let ws := r1.takeWhile pyIsSpace
  if ws.isEmpty then none else
  let r2 := r1.dropWhile pyIsSpace
  let ds := r2.take 4
  if ds.length = 4 && ds.all isAsciiDigit then some (ls, ds) else none

/-- `re.search` of `([a-zA-Z]+)\s+(\d{4})`: leftmost match wins. -/
def searchMonthYear : List Char → Option (List Char × List Char)
  | [] => none
  | c :: rest =>
    match matchMonthYearAt (c :: rest) with
    | some r => some r
    | none => searchMonthYear rest

/-- `DateParser.parse_release_date` (`scraper.py` lines 152-187), its
preparation phase: lower and strip, then drop a leading `"released "`
token (stripping again). -/
def prepDate (date_text : String) : String :=
  let dt := pyStrip (pyLower date_text)
  if "released ".toList.isPrefixOf dt.toList then pyStrip ⟨dt.toList.drop 9⟩ else dt

/-- `DateParser.parse_release_date` continued: search the prepared text
for `<word> <4 digits>`; map the word through `MONTHS`; build
`datetime(year, month, 1)` (valid exactly for years 1..9999) and format it
`%Y-%m-%d`. -/
def parse_release_date (date_text : String) : Option String :=
  if date_text = "" then none else
  match searchMonthYear (prepDate date_text).toList with
  | none => none
  | some (mls, yls) =>
    match lookupMonth (pyLower ⟨mls⟩) with
    | none => none
    | some m =>
      let y := natOfDigits yls
      if 1 ≤ y ∧ y ≤ 9999 then
        some (padNat 4 y ++ "-" ++ padNat 2 m ++ "-01")
      else none

/-! ## `Scraper.clean_title` (`scraper.py` lines 233-241)

The regex is `^([^\s]{1,6})\.\s+(.+)$` under `re.match`: a greedy 1-6
character non-whitespace prefix, a literal dot, greedy whitespace, and a
non-empty remainder in which `.` cannot cross a newline and `$` accepts
either the end of the string or a position just before one final newline.
Backtracking over the two greedy quantifiers is implemented by descending
loops over the prefix length and the consumed-whitespace length. -/

/-- Does the character list contain no newline (what `.+` can span)? -/
def noNewline (cs : List Char) : Bool := !cs.contains '\n'

/-- The capture of `(.+)$` applied to `cs`: everything, or everything up to
one final newline; `none` when the tail cannot be matched. -/
def dotPlusDollar (cs : List Char) : Option (List Char) :=
  if cs.isEmpty then none
  else if noNewline cs then some cs
  else if cs.getLast? = some '\n' && noNewline cs.dropLast && !cs.dropLast.isEmpty then
    some cs.dropLast
  else none

/-- Backtracking for `\s+(.+)$` on `cs`: try consuming `j` whitespace
characters (largest first, greedy), then match `(.+)$` on the rest.
The initial `j` is the full whitespace run length, so every tried prefix is
indeed whitespace. -/
def wsLoop (cs : List Char) : Nat → Option (List Char)
  | 0 => none
  | j + 1 =>
    match dotPlusDollar (cs.drop (j + 1)) with
    | some r => some r
    | none => wsLoop cs j

/-- Backtracking over the prefix length of `^([^\s]{1,6})\.` (largest
first), continuing with `\s+(.+)$`; returns the two captures. -/
def prefixLoop (cs : List Char) : Nat → Option (List Char × List Char)
  | 0 => none
  | k + 1 =>
    if (cs.take (k + 1)).length = k + 1 && (cs.take (k + 1)).all (fun c => !pyIsSpace c) &&
        cs.get? (k + 1) = some '.' then
      match wsLoop (cs.drop (k + 2)) (((cs.drop (k + 2)).takeWhile pyIsSpace).length) with
      | some rest => some (cs.take (k + 1), rest)
      | none => prefixLoop cs k
    else prefixLoop cs k

/-- Full match of `^([^\s]{1,6})\.\s+(.+)$` returning both captures. -/
def ctMatch (cs : List Char) : Option (List Char × List Char) := prefixLoop cs 6

/-- `Scraper.clean_title`: on a truthy title matching the pattern, return
the prefix and the remainder; otherwise `(None, title)`. -/
def clean_title (title : String) : Option String × String :=
  if title = "" then (none, title)
  else
    match ctMatch title.toList with
    | some (p, r) => (some ⟨p⟩, ⟨r⟩)
    | none => (none, title)

/-- The up-to-twice application of `clean_title` performed by
`Scraper.parse_data` (`scraper.py` lines 268-276): the first successful
split stores the prefix as the series tag and the remainder as the title;
a second successful split appends its prefix after a `"."`. -/
def cleanTitleTwice (title : String) : Option String × String :=
  match clean_title title with
  | (some p, r) =>
    match clean_title r with
    | (some q, r2) => (some (p ++ "." ++ q), r2)
    | (none, _) => (some p, r)
  | (none, _) => (none, title)

/-! ## ISBN validation (`scraper.py` lines 330, 335)

`re.match(r'\d{3}-\d{1,7}-...', s)` anchors at the start only: it succeeds
exactly when some prefix of `s` matches. The character classes `\d` and the
literal `-` are disjoint, so each greedy bounded quantifier must consume its
entire digit run, which must fit its bound and be followed by `-`. -/

/-- Length of the leading ASCII digit run. -/
def digitRun (cs : List Char) : Nat := (cs.takeWhile isAsciiDigit).length

/-- Python `re.match(r'\d{3}-\d{1,5}-\d{1,7}-\d{1}', s) is not None`:
a prefix of `s` matches the group pattern. -/
def isbnMatch (s : String) : Bool :=
  let cs := s.toList
  let a := cs.take 3
  if a.length = 3 && a.all isAsciiDigit then
    match cs.drop 3 with
    | '-' :: r1 =>
      let k := digitRun r1
      if 1 ≤ k && k ≤ 5 && r1.get? k = some '-' then
        let r2 := r1.drop (k + 1)
        let k2 := digitRun r2
        if 1 ≤ k2 && k2 ≤ 7 && r2.get? k2 = some '-' then
          match r2.drop (k2 + 1) with
          | d :: _ => isAsciiDigit d
          | [] => false
        else false
      else false
    | _ => false
  else false

/-! ## `Scraper.get_all_links` (`scraper.py` lines 207-231)

The BeautifulSoup call is abstracted to the list of `href` attributes of
the page's `<a>` elements (`None` for an anchor without `href`). The
frontier dictionary `self.all_links` is an insertion-ordered association
list from URL to visited flag. -/

/-- The allow-list of path fragments (line 215). -/
def allowedParts (onlyReleases : Bool) : List String :=
  if onlyReleases then ["/releases/", "/ranges/"]
  else ["/releases/", "/ranges/", "/hubs/"]

/-- The deny-list of URL fragments (line 216). -/
def disallowedParts : List String :=
  ["facebook.com", "twitter", "youtube", "/basket/", "/pages/v/"]

/-- The `must_contain` list (line 217). -/
def mustContain : List String := ["bigfinish.com"]

/-- The per-anchor keep rule of the loop body (lines 220-229): a truthy
`href` containing an allowed fragment and no disallowed one is resolved to
an absolute URL against the base origin unless it already starts with
`"http"`, and kept when the resolved URL contains the site domain. -/
def keepHref (base : String) (onlyReleases : Bool) : Option String → Option String
  | none => none
  | some h =>
    if h ≠ "" && (allowedParts onlyReleases).any (fun p => strContains h p) &&
        !(disallowedParts.any fun p => strContains h p) then
      let full := if "http".toList.isPrefixOf h.toList then h else base ++ h
      if mustContain.all (fun p => strContains full p) then some full else none
    else none

/-- Key membership in the frontier dictionary (`url in self.all_links`). -/
def hasKey : List (String × Bool) → String → Bool
  | [], _ => false
  | p :: rest, u => p.1 = u || hasKey rest u

/-- Insert a URL into the frontier dictionary if it is not yet a key
(`if full_url not in self.all_links`, line 226-228; `add_url` on the urls
table has the same INSERT OR IGNORE effect). -/
def addNew (st : List (String × Bool)) (u : String) : List (String × Bool) :=
  if hasKey st u then st else st ++ [(u, false)]

/-- `Scraper.get_all_links` over the extracted `href` list: returns the
updated frontier dictionary and `parsed_links`. Every kept URL is appended
to the returned list whether or not it was already known. -/
def get_all_links (base : String) (onlyReleases : Bool) :
    List (Option String) → List (String × Bool) → List (String × Bool) × List String
  | [], st => (st, [])
  | h :: rest, st =>
    match keepHref base onlyReleases h with
    | none => get_all_links base onlyReleases rest st
    | some full =>
      let res := get_all_links base onlyReleases rest (addNew st full)
      (res.1, full :: res.2)

/-! ## `Scraper.parse_data` (`scraper.py` lines 243-339)

BeautifulSoup is an external collaborator; the parsed page is abstracted to
exactly the queries the source performs on it: the `product-desc` div (its
first `h3` text, first `h6` text, and `<p>` elements with their `<a>`
texts), the `detail-page-image` div (its first `img` with `src`/`alt`
attributes), the `release-date` div text, and the four tab divs (text plus
`<a>` texts). `find` returning no element is `none`. Uncaught Python
exceptions are modelled with `Except PyErr`; the outer `try` around soup
construction (which returns `None`) is the `Option Doc` input. -/

inductive PyErr where
  | typeError
  | attributeError
  | indexError
deriving DecidableEq, Repr

structure Img where
  src : Option String
  alt : Option String
deriving DecidableEq, Repr

structure CoverDiv where
  img : Option Img
deriving DecidableEq, Repr

structure Para where
  anchors : List String
deriving DecidableEq, Repr

structure Tab where
  text : String
  anchors : List String
deriving DecidableEq, Repr

structure PDesc where
  h3 : Option String
  h6 : Option String
  paragraphs : List Para
deriving DecidableEq, Repr

structure Doc where
  productDesc : Option PDesc
  coverDiv : Option CoverDiv
  releaseDateDiv : Option String
  tab1 : Option Tab
  tab2 : Option Tab
  tab5 : Option Tab
  tab6 : Option Tab
deriving DecidableEq, Repr

/-- A page with none of the queried elements. -/
def emptyDoc : Doc :=
  { productDesc := none, coverDiv := none, releaseDateDiv := none,
    tab1 := none, tab2 := none, tab5 := none, tab6 := none }

/-- The `data` dictionary built by `parse_data` and persisted by
`Database.save_content` into the content table. -/
structure Record where
  url : String
  title : Option String
  series : Option String
  release_date : Option String
  about : Option String
  background : Option String
  production : Option String
  duration : Option String
  isbn : Option String
  written_by : Option String
  narrated_by : Option String
  cover_url : Option String
  series_tag : Option String
deriving DecidableEq, Repr

/-- The all-`None` initial dictionary (lines 249-263). -/
def emptyRecord (url : String) : Record :=
  { url := url, title := none, series := none, release_date := none,
    about := none, background := none, production := none, duration := none,
    isbn := none, written_by := none, narrated_by := none, cover_url := none,
    series_tag := none }

/-- A page whose description block has a title heading but no series
heading (the spec's "a page with a description block but no secondary
series heading"). -/
def docNoSeries : Doc :=
  { emptyDoc with productDesc := some ⟨some "The Lone Centurion", none, []⟩ }

/-- A page whose description block has a series heading but no title
heading. -/
def docNoTitle : Doc :=
  { emptyDoc with productDesc := some ⟨none, some "Doctor Who", []⟩ }

/-- A page with only a production tab carrying a duration and a
digital-retail ISBN. -/
def docTab6 : Doc :=
  { emptyDoc with tab6 := some ⟨"Duration: 120\nDigital Retail ISBN: 978-1-4028-9462-6\nMore", []⟩ }

/-- The record extracted from `docTab6`. -/
def recTab6 : Record :=
  { emptyRecord "u" with
    production := some "Duration: 120\nDigital Retail ISBN: 978-1-4028-9462-6\nMore",
    duration := some "120",
    isbn := some "978-1-4028-9462-6" }

/-- Python `str(x)` for an optional string (`None` renders as `"None"`
inside the f-string patterns of lines 280-285). -/
def pyStr : Option String → String
  | none => "None"
  | some s => s

/-- Case-insensitive character equality (the `re.IGNORECASE` flag on the
ASCII data this program handles). -/
def ciPrefix : List Char → List Char → Bool
  | [], _ => true
  | _ :: _, [] => false
  | p :: ps, c :: cs => (p.toLower = c.toLower) && ciPrefix ps cs

/-- Does `cs` start with the literal pattern `pat` (case-insensitively)
followed by one whitespace character? This is the shape of the interpolated
patterns `f"{series}:\s"` of lines 280-285, faithful whenever the series
name contains no regex metacharacters. -/
def lwsMatchAt (pat cs : List Char) : Bool :=
  ciPrefix pat cs &&
    match cs.drop pat.length with
    | c :: _ => pyIsSpace c
    | [] => false

/-- `re.search(f"{pat}\s", text, re.IGNORECASE) is not None` for a literal
`pat` (the trailing `:` is already part of `pat` at the call sites). -/
def reSearchLitWs (pat : List Char) : List Char → Bool
  | [] => false
  | c :: rest => lwsMatchAt pat (c :: rest) || reSearchLitWs pat rest

/-- `re.sub(f"{pat}\s", '', text, re.IGNORECASE)` for a literal `pat`:
remove every non-overlapping occurrence (the matched whitespace character
included), scanning left to right. Structural on a fuel that dominates the
input length (at least one character is consumed per step). -/
def reSubAux (pat : List Char) : Nat → List Char → List Char
  | _, [] => []
  | 0, cs => cs
  | fuel + 1, c :: rest =>
    if lwsMatchAt pat (c :: rest) then reSubAux pat fuel (rest.drop pat.length)
    else c :: reSubAux pat fuel rest

/-- `re.sub(f"{pat}\s", '', text, re.IGNORECASE)` for a literal `pat`. -/
def reSubLitWs (pat cs : List Char) : List Char := reSubAux pat cs.length cs

/-- Python `s.replace(old, new)` for a non-empty `old` (`" -"` at the call
site), scanning left to right over non-overlapping occurrences; structural
on a fuel that dominates the input length. -/
def replaceAux (oh : Char) (ot : List Char) (new : List Char) : Nat → List Char →
    List Char
  | _, [] => []
  | 0, cs => cs
  | fuel + 1, c :: rest =>
    if (oh :: ot).isPrefixOf (c :: rest) then
      new ++ replaceAux oh ot new fuel (rest.drop ot.length)
    else c :: replaceAux oh ot new fuel rest

/-- Python `s.replace(old, new)` (non-empty `old`). -/
def pyReplace (s old new : String) : String :=
  match old.toList with
  | [] => s
  | oh :: ot => ⟨replaceAux oh ot new.toList s.toList.length s.toList⟩

/-- `", ".join(xs)`. -/
def joinComma (xs : List String) : String := String.intercalate ", " xs

/-- The `product-desc` block (lines 265-285): raw title from the first
`h3`, the up-to-twice `clean_title` split, series from the first `h6`, then
the two series-prefix de-duplication rewrites of the title. Line 280 calls
`re.search` with the current title as the string argument: when the title
is `None` (no `h3`), Python raises `TypeError`. Line 283 calls
`series.replace`: when the series is `None` (no `h6`), Python raises
`AttributeError`. Neither exception is caught anywhere in `parse_data`. -/
def step_product (d : Doc) (r : Record) : Except PyErr Record :=
  match d.productDesc with
  | none => .ok r
  | some pd =>
    let t0 : Option String := pd.h3.map pyStrip
    let tagAndTitle : Option String × Option String :=
      match t0 with
      | none => (r.series_tag, t0)
      | some t =>
        match clean_title t with
        | (none, _) => (r.series_tag, t0)
        | (some p, r1) =>
          match clean_title r1 with
          | (none, _) => (some p, some r1)
          | (some q, r2) => (some (p ++ "." ++ q), some r2)
    let series := pd.h6.map pyStrip
    match tagAndTitle.2 with
    | none => .error .typeError
    | some t =>
      let pat1 := (pyStr series ++ ":").toList
      let t := if reSearchLitWs pat1 t.toList then (⟨reSubLitWs pat1 t.toList⟩ : String) else t
      match series with
      | none => .error .attributeError
      | some s =>
        let pat2 := (pyReplace s " -" ":" ++ ":").toList
        let t := if reSearchLitWs pat2 t.toList then (⟨reSubLitWs pat2 t.toList⟩ : String) else t
        .ok { r with title := some t, series := series, series_tag := tagAndTitle.1 }

/-- The `detail-page-image` block (lines 287-294): `src` resolved against
the base origin when relative and truthy; a truthy `alt` overrides the
title. -/
def step_cover (base : String) (d : Doc) (r : Record) : Record :=
  match d.coverDiv with
  | none => r
  | some cd =>
    match cd.img with
    | none => r
    | some img =>
      let cu : Option String :=
        match img.src with
        | none => none
        | some s =>
          if s ≠ "" && !("http".toList.isPrefixOf s.toList) then some (base ++ s)
          else some s
      let title : Option String :=
        match img.alt with
        | some a => if a ≠ "" then some a else r.title
        | none => r.title
      { r with cover_url := cu, title := title }

/-- The `release-date` block (lines 297-302). -/
def step_release (d : Doc) (r : Record) : Record :=
  match d.releaseDateDiv with
  | none => r
  | some txt =>
    match parse_release_date (pyStrip txt) with
    | some pd => { r with release_date := some pd }
    | none => r

/-- The credits paragraphs (lines 305-309): linked names of the first and
second `<p>` of the description block, comma-joined. -/
def step_paras (d : Doc) (r : Record) : Record :=
  let ps : List Para :=
    match d.productDesc with
    | some pd => pd.paragraphs
    | none => []
  let r1 :=
    match ps.get? 0 with
    | some p0 => { r with written_by := some (joinComma (p0.anchors.map pyStrip)) }
    | none => r
  match ps.get? 1 with
  | some p1 => { r1 with narrated_by := some (joinComma (p1.anchors.map pyStrip)) }
  | none => r1

/-- List indexing with Python's `IndexError`. -/
def pyIndex (l : List String) (i : Nat) : Except PyErr String :=
  match l.get? i with
  | some v => .ok v
  | none => .error .indexError

/-- `content.split(marker)[1].split(' ')[0].split('\n')[0]` (lines 326,
328, 333): the text after the first occurrence of the marker, truncated at
the next space or newline. The `[1]` raises `IndexError` when the marker
does not occur (reachable for `Duration:` without a trailing space, since
the guard checks `'Duration:'` but the split uses `'Duration: '`). -/
def extractAfter (marker content : String) : Except PyErr String := do
  let p1 ← pyIndex (pySplit marker content) 1
  let p2 ← pyIndex (pySplit " " p1) 0
  pyIndex (pySplit "\n" p2) 0

/-- The duration sub-extraction of the production tab (lines 325-326):
text after `"Duration: "`, truncated at the next space or newline, kept as
a raw string. -/
def tab6duration (content : String) (r : Record) : Except PyErr Record :=
  if strContains content "Duration:" then do
    let v ← extractAfter "Duration: " content
    pure { r with duration := some v }
  else pure r

/-- The ISBN sub-extraction of the production tab (lines 327-336): text
after `"Digital Retail ISBN: "` if present, else after
`"Physical Retail ISBN: "`, truncated at the next space or newline, then
discarded unless `re.match` accepts a prefix of it. -/
def tab6isbn (content : String) (r : Record) : Except PyErr Record :=
  if strContains content "Digital Retail ISBN: " then do
    let v ← extractAfter "Digital Retail ISBN: " content
    pure { r with isbn := if isbnMatch v then some v else none }
  else if strContains content "Physical Retail ISBN: " then do
    let v ← extractAfter "Physical Retail ISBN: " content
    pure { r with isbn := if isbnMatch v then some v else none }
  else pure r

/-- The production tab (lines 323-336): store the raw text, then the two
independent sub-extractions. -/
def step_tab6content (content : String) (r : Record) : Except PyErr Record := do
  let r1 ← tab6duration content { r with production := some content }
  tab6isbn content r1

/-- The `tab1` step of the tab loop (lines 312-317): about text. -/
def step_tab1 (d : Doc) (r : Record) : Record :=
  match d.tab1 with
  | some tb => { r with about := some (pyStrip tb.text) }
  | none => r

/-- The `tab2` step (lines 318-319): background text. -/
def step_tab2 (d : Doc) (r : Record) : Record :=
  match d.tab2 with
  | some tb => { r with background := some (pyStrip tb.text) }
  | none => r

/-- The `tab5` step (lines 320-321): cast links overwrite `narrated_by`. -/
def step_tab5 (d : Doc) (r : Record) : Record :=
  match d.tab5 with
  | some tb => { r with narrated_by := some (joinComma (tb.anchors.map pyStrip)) }
  | none => r

/-- The tab loop (lines 312-336) over `tab1`, `tab2`, `tab5`, `tab6`:
about, background, cast links, production. -/
def step_tabs (d : Doc) (r : Record) : Except PyErr Record :=
  match d.tab6 with
  | some tb => step_tab6content (pyStrip tb.text) (step_tab5 d (step_tab2 d (step_tab1 d r)))
  | none => .ok (step_tab5 d (step_tab2 d (step_tab1 d r)))

/-- `Scraper.parse_data`: `none` input models the caught soup-construction
failure (the function logs and returns `None`); otherwise the record is
built by the five blocks in source order and persisted via
`save_content`. An `Except.error` is an uncaught Python exception. -/
def parse_data (base url : String) (soup : Option Doc) : Except PyErr (Option Record) :=
  match soup with
  | none => .ok none
  | some d => do
    let r ← step_product d (emptyRecord url)
    let r := step_cover base d r
    let r := step_release d r
    let r := step_paras d r
    let r ← step_tabs d r
    .ok (some r)

/-! ## `Scraper.run` (`scraper.py` lines 341-369)

The frontier dictionary `self.all_links` is an insertion-ordered
association list from URL to visited flag. External effects are function
parameters: `fetch` is `get_html` (`none` for a request exception, i.e. a
network error or non-2xx status), `soupOf` is the BeautifulSoup parse of a
body inside `parse_data` (`none` for a caught parse failure), and
`htmlLinks` is the parse inside `get_all_links` yielding the page's anchor
`href`s (`none` when that parse fails, in which case `get_all_links`
catches and returns no links). -/

/-- Does the URL match the detail-page pattern (`"/releases/v/" in link`)? -/
def isDetail (u : String) : Bool := strContains u "/releases/v/"

/-- Dictionary lookup in the frontier (first binding of the key). -/
def lookupB : List (String × Bool) → String → Option Bool
  | [], _ => none
  | p :: rest, u => if p.1 = u then some p.2 else lookupB rest u

/-- `self.all_links[link] = True` (and `mark_url_visited` on the urls
table): set the flag, inserting the key if it were absent. -/
def markVisitedL (st : List (String × Bool)) (u : String) : List (String × Bool) :=
  if hasKey st u then
    st.map fun p => if p.1 = u then (p.1, true) else p
  else st ++ [(u, true)]

/-- `get_all_links` applied to an HTML body: the parse failure of lines
208-212 is caught and yields no links, leaving the frontier unchanged. -/
def get_all_links_html (htmlLinks : String → Option (List (Option String)))
    (base : String) (onlyReleases : Bool) (html : String) (st : List (String × Bool)) :
    List (String × Bool) × List String :=
  match htmlLinks html with
  | none => (st, [])
  | some hrefs => get_all_links base onlyReleases hrefs st

/-- One iteration of the inner `for link in unvisited_links` loop (lines
361-369): fetch; only under `if content:` (no exception AND non-empty
body) classify links, extract the detail record, and mark the link
visited. A `fetch` failure or empty body leaves the frontier untouched; an
uncaught extraction exception propagates out of `run`. -/
def runIteration (fetch : String → Option String)
    (soupOf : String → Option Doc)
    (htmlLinks : String → Option (List (Option String)))
    (base : String) (st : List (String × Bool)) (link : String) :
    Except PyErr (List (String × Bool)) :=
  match fetch link with
  | none => .ok st
  | some content =>
    if content = "" then .ok st
    else do
      let st1 := (get_all_links_html htmlLinks base true content st).1
      let _ ←
        if isDetail link then parse_data base link (soupOf content)
        else .ok none
      .ok (markVisitedL st1 link)

/-! ### The fixed-point crawl loop, at the link-graph level (claim C2)

For the termination claim the fetch pipeline is abstracted to the claim's
premise: every fetch succeeds and yields a fixed page, so each URL has a
fixed list of anchor `href`s `pageHrefs u`, classified by `get_all_links`
in release-only mode exactly as in the source, and a fixed extraction
outcome `pageParse u` — the result of `parse_data` on that page (line
367), i.e. `parse_data base u (soupOf (page u))`. Extraction never touches
the frontier, but an uncaught exception from it propagates out of `run`
and kills the whole loop, so the loop is threaded through `Except`. The
second state component logs each processed URL in order, to express the
visited-exactly-once property. -/

/-- Frontier state together with the log of fetched URLs. -/
abbrev CrawlState := List (String × Bool) × List String

/-- The frontier-and-log effect of one loop body (lines 362-369) when its
extraction raises nothing: classify the page's links in release-only mode,
mark the link visited, and log it. -/
def procLink (base : String) (pageHrefs : String → List (Option String))
    (s : CrawlState) (l : String) : CrawlState :=
  ((markVisitedL (get_all_links base true (pageHrefs l) s.1).1 l), s.2 ++ [l])

/-- One pass of the outer `while True` over the snapshot batch. -/
def procPass (base : String) (pageHrefs : String → List (Option String))
    (s : CrawlState) (batch : List String) : CrawlState :=
  batch.foldl (procLink base pageHrefs) s

/-- The snapshot `unvisited_links` of lines 351-354: unvisited keys whose
URL matches the detail pattern, in dictionary order. -/
def snapshotOf (st : List (String × Bool)) : List String :=
  (st.filter fun p => !p.2 && isDetail p.1).map Prod.fst

/-- The outer `while True` loop (lines 350-369) with an explicit bound on
the number of passes: recompute the snapshot; stop when it is empty,
otherwise run one pass and repeat. -/
def runLoop (base : String) (pageHrefs : String → List (Option String)) :
    Nat → CrawlState → CrawlState
  | 0, s => s
  | n + 1, s =>
    let batch := snapshotOf s.1
    if batch.isEmpty then s
    else runLoop base pageHrefs n (procPass base pageHrefs s batch)

/-- A two-page witness universe: detail page 1 links to detail page 2. -/
def v1url : String := "https://www.bigfinish.com/releases/v/1"

/-- The second detail page of the witness universe. -/
def v2url : String := "https://www.bigfinish.com/releases/v/2"

/-- The witness link graph: page 1 carries one relative detail href, page 2
carries none. -/
def phW : String → List (Option String) :=
  fun l => if l = v1url then [some "/releases/v/2"] else []

/-- The full loop body for one link (lines 362-369), extraction included:
for a detail link `parse_data` runs (line 367) and an uncaught exception
aborts the entire run before the link is marked visited; otherwise the
body reduces to `procLink`. Every snapshot link is a detail link, so
inside the loop the extraction call is always reached. -/
def procLinkE (base : String) (pageHrefs : String → List (Option String))
    (pageParse : String → Except PyErr (Option Record))
    (s : CrawlState) (l : String) : Except PyErr CrawlState :=
  if isDetail l then
    match pageParse l with
    | .error e => .error e
    | .ok _ => .ok (procLink base pageHrefs s l)
  else .ok (procLink base pageHrefs s l)

/-- One pass of the outer `while True` over the snapshot batch, aborting
the run at the first uncaught extraction exception. -/
def procPassE (base : String) (pageHrefs : String → List (Option String))
    (pageParse : String → Except PyErr (Option Record)) :
    CrawlState → List String → Except PyErr CrawlState
  | s, [] => .ok s
  | s, l :: rest =>
    match procLinkE base pageHrefs pageParse s l with
    | .error e => .error e
    | .ok s1 => procPassE base pageHrefs pageParse s1 rest

/-- The outer `while True` loop (lines 350-369) with the extraction error
path and an explicit bound on the number of passes: recompute the
snapshot; stop when it is empty, otherwise run one pass — which either
aborts the run or yields the next state — and repeat. -/
def runLoopE (base : String) (pageHrefs : String → List (Option String))
    (pageParse : String → Except PyErr (Option Record)) :
    Nat → CrawlState → Except PyErr CrawlState
  | 0, s => .ok s
  | n + 1, s =>
    if (snapshotOf s.1).isEmpty then .ok s
    else
      match procPassE base pageHrefs pageParse s (snapshotOf s.1) with
      | .error e => .error e
      | .ok s1 => runLoopE base pageHrefs pageParse n s1

/-- An extraction realization in which every page parses cleanly into the
no-description-block record. -/
def ppOk : String → Except PyErr (Option Record) := fun _ => .ok none

/-- An extraction realization in which page 1 is a real crashing page: its
product-desc div has an `h3` title but no `h6` series heading, so
`parse_data` raises the uncaught `AttributeError` of line 283. -/
def ppCrash : String → Except PyErr (Option Record) :=
  fun l =>
    if l = v1url then parse_data "https://www.bigfinish.com" l (some docNoSeries)
    else .ok none

/-! ## The urls table (`scraper.py` lines 56-94)

Rows of the sqlite `urls` table; timestamps are abstract instants
(`Nat`). `CURRENT_TIMESTAMP` is passed explicitly as `now`. -/

structure UrlRow where
  url : String
  visited : Bool
  visited_at : Option Nat
  discovered_at : Nat
deriving DecidableEq, Repr

/-- `Database.add_url` (lines 68-76): `INSERT OR IGNORE` with an explicit
`discovered_at`; `visited` and `visited_at` take their column defaults
(`FALSE`, `NULL`). -/
def add_url (now : Nat) (tbl : List UrlRow) (u : String) : List UrlRow :=
  if tbl.any fun r => r.url = u then tbl
  else tbl ++ [{ url := u, visited := false, visited_at := none, discovered_at := now }]

/-- `Database.mark_url_visited` (lines 78-86): `INSERT OR REPLACE INTO urls
(url, visited, visited_at) VALUES (?, TRUE, CURRENT_TIMESTAMP)`. On
conflict sqlite deletes the old row and inserts the new one; the omitted
`discovered_at` column takes its default `CURRENT_TIMESTAMP`, i.e. `now`. -/
def mark_url_visited (now : Nat) (tbl : List UrlRow) (u : String) : List UrlRow :=
  let newRow : UrlRow :=
    { url := u, visited := true, visited_at := some now, discovered_at := now }
  if tbl.any fun r => r.url = u then
    tbl.map fun r => if r.url = u then newRow else r
  else tbl ++ [newRow]

/-! ## The two search endpoints (`web-api.py` lines 34-78,
`outdated_scraper-api.py` lines 30-73)

`fuzz.ratio` (fuzzywuzzy) is an external collaborator, abstracted as a
score function parameter. Python's `list.sort(reverse=True)` is a stable
descending sort, modelled by left-fold insertion that keeps later-inserted
elements behind earlier ones with an equal key. -/

/-- Insert into a descending list, passing exactly the strictly smaller
keys; equal keys keep the already-present (earlier) element first. -/
def insertDesc {α : Type} (x : Nat × α) : List (Nat × α) → List (Nat × α)
  | [] => [x]
  | y :: ys => if y.1 < x.1 then x :: y :: ys else y :: insertDesc x ys

/-- Stable descending sort by the first component, Python
`list.sort(reverse=True, key=itemgetter(0))`. -/
def pySortDesc {α : Type} (l : List (Nat × α)) : List (Nat × α) :=
  l.foldl (fun acc x => insertDesc x acc) []

/-- The scored candidate list of the local variant
(`outdated_scraper-api.py` lines 42-47): rows with a truthy title are
scored case-insensitively and kept only above the threshold 60. -/
def localScored (ratio : String → String → Nat) (query : String)
    (rows : List Record) : List (Nat × Record) :=
  rows.filterMap fun row =>
    match row.title with
    | none => none
    | some t =>
      if t = "" then none
      else
        let sc := ratio (pyLower query) (pyLower t)
        if 60 < sc then some (sc, row) else none

/-- The local variant's ranked list (lines 49-50): stable descending sort,
then the first five. -/
def localTop (ratio : String → String → Nat) (query : String)
    (rows : List Record) : List (Nat × Record) :=
  (pySortDesc (localScored ratio query rows)).take 5

/-- The scoring loop of the live variant (`web-api.py` lines 40-43):
every row is scored; `match['title'].lower()` raises `AttributeError`
when the title is `NULL`. -/
def liveScored (ratio : String → String → Nat) (query : String) :
    List Record → Except PyErr (List (Nat × Record))
  | [] => .ok []
  | row :: rest =>
    match row.title with
    | none => .error .attributeError
    | some t => do
      let tl ← liveScored ratio query rest
      .ok ((ratio (pyLower query) (pyLower t), row) :: tl)

/-- The live variant's ranked list (lines 46-49): no threshold, no cap,
stable descending sort of all scored candidates. -/
def liveRank (ratio : String → String → Nat) (query : String)
    (rows : List Record) : Except PyErr (List (Nat × Record)) := do
  let scored ← liveScored ratio query rows
  .ok (pySortDesc scored)

/-- The duration field of a response row in `web-api.py` (lines 53-58, 70):
parse the stored string with `int` under a truthiness guard; report the
minutes, with a falsy (zero) result reported as `None`. -/
def duration_web (d : Option String) : Option Int :=
  match d with
  | none => none
  | some s =>
    if s = "" then none
    else
      match pyInt s with
      | some n => if n ≠ 0 then some n else none
      | none => none

/-- The duration field of a response row in `outdated_scraper-api.py`
(lines 54-59, 68): as in the other variant but multiplied by 60, with a
falsy (zero) parse reported as `None`. -/
def duration_out (d : Option String) : Option Int :=
  match d with
  | none => none
  | some s =>
    if s = "" then none
    else
      match pyInt s with
      | some n => if n ≠ 0 then some (n * 60) else none
      | none => none

/-! ## Predicates and instances used by the lemmas and claims -/

/-- Decidable equality for `Except` results, to evaluate the embedded
functions on concrete inputs. -/
instance {e a : Type} [DecidableEq e] [DecidableEq a] : DecidableEq (Except e a) :=
  fun x y =>
    match x, y with
    | .ok v, .ok w =>
      if h : v = w then .isTrue (h ▸ rfl)
      else .isFalse fun hc => h (by cases hc; rfl)
    | .error v, .error w =>
      if h : v = w then .isTrue (h ▸ rfl)
      else .isFalse fun hc => h (by cases hc; rfl)
    | .ok _, .error _ => .isFalse fun hc => by cases hc
    | .error _, .ok _ => .isFalse fun hc => by cases hc

/-- Unique keys, stated recursively to match the dictionary operations. -/
def NodupKeys : List (String × Bool) → Prop
  | [] => True
  | p :: rest => hasKey rest p.1 = false ∧ NodupKeys rest

/-- A URL not (yet) marked visited in the frontier. -/
def unvisitedB (st : List (String × Bool)) (u : String) : Bool :=
  decide (lookupB st u ≠ some true)

/-- Number of unvisited URLs of the finite universe `U`. -/
def UVcount (U : List String) (st : List (String × Bool)) : Nat :=
  (U.filter (unvisitedB st)).length

/-- The invariant of the crawl loop, over the finite universe `U` and the
initial frontier `st0`: unique dictionary keys, all keys inside the
universe, a duplicate-free log of fetched URLs, each logged URL a detail
URL that was unvisited initially and is visited now, visits only created
by logging, and visitedness monotone from the initial state. -/
def CrawlInv (U : List String) (st0 : List (String × Bool)) (s : CrawlState) : Prop :=
  NodupKeys s.1 ∧
  (∀ u, hasKey s.1 u = true → u ∈ U) ∧
  s.2.Nodup ∧
  (∀ u ∈ s.2, isDetail u = true ∧ lookupB st0 u ≠ some true ∧
    lookupB s.1 u = some true) ∧
  (∀ u, lookupB s.1 u = some true → lookupB st0 u = some true ∨ u ∈ s.2) ∧
  (∀ u, lookupB st0 u = some true → lookupB s.1 u = some true)

/-- A series-tag component as produced by one successful `clean_title`
split: non-empty, at most six characters, all non-whitespace. -/
def componentOk (cs : List Char) : Bool :=
  !cs.isEmpty && cs.length ≤ 6 && cs.all fun c => !pyIsSpace c

/-- Descending order by score. -/
def sortedDesc {α : Type} (l : List (Nat × α)) : Prop :=
  l.Pairwise fun a b => b.1 ≤ a.1

/-- A validated-or-absent ISBN field. -/
def isbnOk (o : Option String) : Prop :=
  o = none ∨ ∃ v, o = some v ∧ isbnMatch v = true

/-! ## Evaluated examples -/

example : parse_release_date "Released March 2020" = some "2020-03-01" := by decide
example : parse_release_date "released Marchy 2020" = none := by decide
example : parse_release_date "  Released  July 1999 and later" = some "1999-07-01" := by
  decide

example : cleanTitleTwice "1.2. The Actual Title" = (some "1.2", "The Actual Title") := by
  decide
example : cleanTitleTwice "The Actual Title" = (none, "The Actual Title") := by decide
example : cleanTitleTwice "1. 2. Both Split" = (some "1.2", "Both Split") := by decide

example : isbnMatch "978-1-4028-9462-6" = true := by decide
example : isbnMatch "N/A" = false := by decide
example : isbnMatch "978-1-4028-9XYZ" = true := by decide

example :
    (get_all_links "https://www.bigfinish.com" false
      [some "/releases/v/123", some "https://facebook.com/x", some "/basket/"] []).2 =
      ["https://www.bigfinish.com/releases/v/123"] := by decide

/-! ## Frontier dictionary lemmas -/

theorem hasKey_append {st tl : List (String × Bool)} {u : String} :
    hasKey (st ++ tl) u = (hasKey st u || hasKey tl u) := by
  induction st with
  | nil => rfl
  | cons p rest ih => by_cases he : p.1 = u <;> simp [hasKey, he, ih]

theorem hasKey_of_lookup {st : List (String × Bool)} {u : String} {b : Bool}
    (h : lookupB st u = some b) : hasKey st u = true := by
  induction st with
  | nil => cases h
  | cons p rest ih =>
    by_cases he : p.1 = u
    · simp [hasKey, he]
    · simp only [lookupB, he, if_neg, if_false] at h
      simp [hasKey, he, ih h]

theorem lookup_isSome_of_hasKey {st : List (String × Bool)} {u : String}
    (h : hasKey st u = true) : ∃ b, lookupB st u = some b := by
  induction st with
  | nil => cases h
  | cons p rest ih =>
    by_cases he : p.1 = u
    · exact ⟨p.2, by simp [lookupB, he]⟩
    · simp only [hasKey, he, decide_eq_true_eq, Bool.false_or] at h
      rcases ih (by simpa using h) with ⟨b, hb⟩
      exact ⟨b, by simpa [lookupB, he] using hb⟩

theorem lookup_none_of_hasKey_false {st : List (String × Bool)} {u : String}
    (h : hasKey st u = false) : lookupB st u = none := by
  induction st with
  | nil => rfl
  | cons p rest ih =>
    simp only [hasKey, Bool.or_eq_false_iff] at h
    have he : ¬ p.1 = u := by simpa using h.1
    simpa [lookupB, he] using ih h.2

theorem hasKey_of_mem {st : List (String × Bool)} {u : String} {b : Bool}
    (hm : (u, b) ∈ st) : hasKey st u = true := by
  induction st with
  | nil => cases hm
  | cons p rest ih =>
    rcases List.mem_cons.mp hm with h | h
    · subst h; simp [hasKey]
    · simp [hasKey, ih h]

theorem lookupB_of_mem_nodup {st : List (String × Bool)} {u : String} {b : Bool}
    (hn : NodupKeys st) (hm : (u, b) ∈ st) : lookupB st u = some b := by
  induction st with
  | nil => cases hm
  | cons p rest ih =>
    simp only [NodupKeys] at hn
    rcases List.mem_cons.mp hm with h | h
    · subst h; simp [lookupB]
    · have hne : p.1 ≠ u := by
        intro he
        rw [he, hasKey_of_mem h] at hn
        exact absurd hn.1 (by simp)
      simpa [lookupB, hne] using ih hn.2 h

theorem mem_of_lookupB {st : List (String × Bool)} {u : String} {b : Bool}
    (h : lookupB st u = some b) : (u, b) ∈ st := by
  induction st with
  | nil => cases h
  | cons p rest ih =>
    by_cases he : p.1 = u
    · simp only [lookupB, he, if_pos] at h
      cases h
      exact List.mem_cons.mpr (Or.inl (by cases p; simp_all))
    · simp only [lookupB, he, if_neg, if_false] at h
      exact List.mem_cons.mpr (Or.inr (ih h))

theorem lookupB_append_left {st tl : List (String × Bool)} {u : String} {b : Bool}
    (h : lookupB st u = some b) : lookupB (st ++ tl) u = some b := by
  induction st with
  | nil => cases h
  | cons p rest ih =>
    by_cases he : p.1 = u
    · simpa [lookupB, he] using h
    · simp only [lookupB, he, if_neg, if_false] at h
      simpa [lookupB, he] using ih h

theorem lookupB_append_right {st tl : List (String × Bool)} {u : String}
    (h : hasKey st u = false) : lookupB (st ++ tl) u = lookupB tl u := by
  induction st with
  | nil => rfl
  | cons p rest ih =>
    simp only [hasKey, Bool.or_eq_false_iff] at h
    have hne : ¬ p.1 = u := by simpa using h.1
    simpa [lookupB, hne] using ih h.2

/-- `addNew` never changes the value stored under an existing key and
stores `false` under a fresh one, so visited lookups are exactly
preserved. -/
theorem addNew_lookup_true {st : List (String × Bool)} {u v : String} :
    lookupB (addNew st v) u = some true ↔ lookupB st u = some true := by
  unfold addNew
  split
  · exact Iff.rfl
  · rename_i hv
    constructor
    · intro h
      rcases hk : hasKey st u with _ | _
      · rw [lookupB_append_right hk] at h
        by_cases he : v = u <;> simp [lookupB, he] at h
      · rcases lookup_isSome_of_hasKey hk with ⟨b, hb⟩
        rw [lookupB_append_left hb] at h
        exact hb.trans h
    · intro h
      exact lookupB_append_left h

theorem addNew_lookup_false {st : List (String × Bool)} {u v : String}
    (h : lookupB st u = some false) : lookupB (addNew st v) u = some false := by
  unfold addNew
  split
  · exact h
  · exact lookupB_append_left h

theorem hasKey_addNew {st : List (String × Bool)} {u v : String} :
    hasKey (addNew st v) u = (hasKey st u || u = v) := by
  unfold addNew
  split
  · rename_i hv
    by_cases he : u = v
    · subst he; simp [hv]
    · simp [he]
  · rw [hasKey_append]
    simp [hasKey, eq_comm]

theorem nodup_append_fresh {st : List (String × Bool)} {v : String} {b : Bool}
    (h : NodupKeys st) (hv : hasKey st v = false) : NodupKeys (st ++ [(v, b)]) := by
  induction st with
  | nil => exact ⟨rfl, trivial⟩
  | cons p rest ih =>
    simp only [NodupKeys] at h
    simp only [hasKey, Bool.or_eq_false_iff] at hv
    refine ⟨?_, ih h.2 hv.2⟩
    show hasKey (rest ++ [(v, b)]) p.1 = false
    rw [hasKey_append]
    simp only [h.1, Bool.false_or, hasKey, Bool.or_false]
    simpa [eq_comm] using hv.1

theorem addNew_nodup {st : List (String × Bool)} {v : String}
    (h : NodupKeys st) : NodupKeys (addNew st v) := by
  unfold addNew
  split
  · exact h
  · rename_i hv
    exact nodup_append_fresh h (by simpa using hv)

theorem markVisitedL_lookup_map_self {st : List (String × Bool)} {l : String}
    (hm : hasKey st l = true) :
    lookupB (st.map fun p => if p.1 = l then (p.1, true) else p) l = some true := by
  induction st with
  | nil => cases hm
  | cons p rest ih =>
    by_cases he : p.1 = l
    · simp [lookupB, he]
    · simp only [hasKey, he, decide_eq_true_eq, Bool.false_or] at hm
      simpa [lookupB, he] using ih (by simpa using hm)

theorem markVisitedL_lookup_map_other {st : List (String × Bool)} {l u : String}
    (h : u ≠ l) :
    lookupB (st.map fun p => if p.1 = l then (p.1, true) else p) u = lookupB st u := by
  induction st with
  | nil => rfl
  | cons p rest ih =>
    have hlu : ¬ l = u := fun hc => h hc.symm
    by_cases hel : p.1 = l
    · have hne : ¬ p.1 = u := by rw [hel]; exact hlu
      simp [lookupB, hel, hne, hlu, ih]
    · by_cases he : p.1 = u <;> simp [lookupB, hel, he, h, ih]

theorem markVisitedL_lookup_self {st : List (String × Bool)} {l : String} :
    lookupB (markVisitedL st l) l = some true := by
  unfold markVisitedL
  split
  · rename_i hc
    exact markVisitedL_lookup_map_self hc
  · rename_i hc
    rw [lookupB_append_right (by simpa using hc)]
    simp [lookupB]

theorem markVisitedL_lookup_other {st : List (String × Bool)} {l u : String}
    (h : u ≠ l) : lookupB (markVisitedL st l) u = lookupB st u := by
  unfold markVisitedL
  split
  · exact markVisitedL_lookup_map_other h
  · rcases hk : hasKey st u with _ | _
    · rw [lookupB_append_right hk, lookup_none_of_hasKey_false hk]
      have hlu : ¬ l = u := fun hc => h hc.symm
      simp [lookupB, hlu]
    · rcases lookup_isSome_of_hasKey hk with ⟨b, hb⟩
      rw [lookupB_append_left hb, hb]

theorem hasKey_map_mark {st : List (String × Bool)} {l u : String} :
    hasKey (st.map fun p => if p.1 = l then (p.1, true) else p) u = hasKey st u := by
  induction st with
  | nil => rfl
  | cons p rest ih =>
    by_cases hel : p.1 = l <;> simp [hasKey, hel, ih]

theorem hasKey_markVisitedL {st : List (String × Bool)} {l u : String} :
    hasKey (markVisitedL st l) u = (hasKey st u || u = l) := by
  unfold markVisitedL
  split
  · rename_i hc
    rw [hasKey_map_mark]
    by_cases he : u = l
    · subst he; simp [hc]
    · simp [he]
  · rw [hasKey_append]
    simp [hasKey, eq_comm]

theorem nodupKeys_map_mark {st : List (String × Bool)} {l : String}
    (h : NodupKeys st) :
    NodupKeys (st.map fun p => if p.1 = l then (p.1, true) else p) := by
  induction st with
  | nil => trivial
  | cons p rest ih =>
    simp only [NodupKeys] at h
    by_cases hel : p.1 = l
    · simp only [List.map_cons, hel, if_pos, NodupKeys]
      exact ⟨by rw [hasKey_map_mark, ← hel]; exact h.1, ih h.2⟩
    · simp only [List.map_cons, hel, if_neg, NodupKeys]
      exact ⟨by rw [hasKey_map_mark]; exact h.1, ih h.2⟩

theorem markVisitedL_nodup {st : List (String × Bool)} {l : String}
    (h : NodupKeys st) : NodupKeys (markVisitedL st l) := by
  unfold markVisitedL
  split
  · exact nodupKeys_map_mark h
  · rename_i hc
    exact nodup_append_fresh h (by simpa using hc)

/-! ## The state and return value of `get_all_links` -/

/-- `get_all_links` returns exactly the kept hrefs (in page order, already
known or not), and its only state effect is to fold them into the frontier
with `addNew`. -/
theorem gal_spec (base : String) (f : Bool) (hrefs : List (Option String)) :
    ∀ st, get_all_links base f hrefs st =
      ((hrefs.filterMap (keepHref base f)).foldl addNew st,
        hrefs.filterMap (keepHref base f)) := by
  induction hrefs with
  | nil => intro st; rfl
  | cons h rest ih =>
    intro st
    cases hk : keepHref base f h
    · simpa [get_all_links, hk, List.filterMap_cons] using ih st
    · simp [get_all_links, hk, List.filterMap_cons, ih]

theorem foldA_lookup_true {ls : List String} :
    ∀ {st : List (String × Bool)} {u : String},
      lookupB (ls.foldl addNew st) u = some true ↔ lookupB st u = some true := by
  induction ls with
  | nil => exact Iff.rfl
  | cons v ls ih => intro st u; exact ih.trans addNew_lookup_true

theorem foldA_lookup_false {ls : List String} :
    ∀ {st : List (String × Bool)} {u : String},
      lookupB st u = some false → lookupB (ls.foldl addNew st) u = some false := by
  induction ls with
  | nil => exact fun h => h
  | cons v ls ih => intro st u h; exact ih (addNew_lookup_false h)

theorem foldA_hasKey {ls : List String} :
    ∀ {st : List (String × Bool)} {u : String},
      hasKey (ls.foldl addNew st) u = true ↔ (hasKey st u = true ∨ u ∈ ls) := by
  induction ls with
  | nil => intro st u; simp
  | cons v ls ih =>
    intro st u
    constructor
    · intro h
      rcases ih.mp h with h1 | h1
      · rw [hasKey_addNew] at h1
        rcases Bool.or_eq_true_iff.mp h1 with h2 | h2
        · exact Or.inl h2
        · simp only [decide_eq_true_eq] at h2
          exact Or.inr (by simp [h2])
      · exact Or.inr (List.mem_cons.mpr (Or.inr h1))
    · intro h
      rcases h with h1 | h1
      · exact ih.mpr (Or.inl (by rw [hasKey_addNew, h1]; rfl))
      · rcases List.mem_cons.mp h1 with h2 | h2
        · exact ih.mpr (Or.inl (by rw [hasKey_addNew, h2]; simp))
        · exact ih.mpr (Or.inr h2)

theorem foldA_nodup {ls : List String} :
    ∀ {st : List (String × Bool)}, NodupKeys st → NodupKeys (ls.foldl addNew st) := by
  induction ls with
  | nil => exact fun h => h
  | cons v ls ih => intro st h; exact ih (addNew_nodup h)

/-! ## The unvisited counter driving termination -/

theorem filterLen_le {α : Type} {p q : α → Bool} {L : List α}
    (h : ∀ a ∈ L, p a = true → q a = true) :
    (L.filter p).length ≤ (L.filter q).length := by
  induction L with
  | nil => exact Nat.le_refl 0
  | cons a l ih =>
    have ih' := ih fun x hx => h x (List.mem_cons.mpr (Or.inr hx))
    rcases hp : p a with _ | _
    · rcases hq : q a with _ | _ <;> simp [List.filter_cons, hp, hq] <;> omega
    · have := h a (List.mem_cons.mpr (Or.inl rfl)) hp
      simp [List.filter_cons, hp, this]
      omega

theorem filterLen_lt {α : Type} {p q : α → Bool} {L : List α} {a : α}
    (ha : a ∈ L) (hq : q a = true) (hp : p a = false)
    (himp : ∀ x ∈ L, p x = true → q x = true) :
    (L.filter p).length < (L.filter q).length := by
  induction L with
  | nil => cases ha
  | cons b l ih =>
    have himp' := fun x hx => himp x (List.mem_cons.mpr (Or.inr hx))
    rcases List.mem_cons.mp ha with h | h
    · subst h
      have hle : (l.filter p).length ≤ (l.filter q).length := filterLen_le himp'
      simp [List.filter_cons, hp, hq]
      omega
    · rcases hpb : p b with _ | _
      · rcases hqb : q b with _ | _
        · simpa [List.filter_cons, hpb, hqb] using ih h himp'
        · have := ih h himp'
          simp [List.filter_cons, hpb, hqb]
          omega
      · have hqb := himp b (List.mem_cons.mpr (Or.inl rfl)) hpb
        have := ih h himp'
        simp [List.filter_cons, hpb, hqb]
        omega

theorem unvisitedB_true_iff {st : List (String × Bool)} {u : String} :
    unvisitedB st u = true ↔ lookupB st u ≠ some true := by
  simp [unvisitedB]

theorem unvisitedB_false_iff {st : List (String × Bool)} {u : String} :
    unvisitedB st u = false ↔ lookupB st u = some true := by
  simp [unvisitedB]

/-! ## One crawl-loop iteration at the graph level -/

section CrawlLoop

variable (base : String) (pageHrefs : String → List (Option String))

theorem procLink_fst (s : CrawlState) (l : String) :
    (procLink base pageHrefs s l).1 =
      markVisitedL (((pageHrefs l).filterMap (keepHref base true)).foldl addNew s.1) l := by
  unfold procLink
  rw [gal_spec]

theorem procLink_lookup_self (s : CrawlState) (l : String) :
    lookupB (procLink base pageHrefs s l).1 l = some true := by
  rw [procLink_fst]; exact markVisitedL_lookup_self

theorem procLink_lookup_true (s : CrawlState) (l u : String) (h : u ≠ l) :
    lookupB (procLink base pageHrefs s l).1 u = some true ↔
      lookupB s.1 u = some true := by
  rw [procLink_fst, markVisitedL_lookup_other h]
  exact foldA_lookup_true

theorem procLink_lookup_false (s : CrawlState) (l u : String) (h : u ≠ l)
    (hf : lookupB s.1 u = some false) :
    lookupB (procLink base pageHrefs s l).1 u = some false := by
  rw [procLink_fst, markVisitedL_lookup_other h]
  exact foldA_lookup_false hf

theorem procLink_hasKey (s : CrawlState) (l u : String) :
    hasKey (procLink base pageHrefs s l).1 u = true ↔
      (hasKey s.1 u = true ∨ u ∈ (pageHrefs l).filterMap (keepHref base true) ∨ u = l) := by
  rw [procLink_fst, hasKey_markVisitedL]
  constructor
  · intro h
    rcases Bool.or_eq_true_iff.mp h with h1 | h1
    · rcases foldA_hasKey.mp h1 with h2 | h2
      · exact Or.inl h2
      · exact Or.inr (Or.inl h2)
    · exact Or.inr (Or.inr (by simpa using h1))
  · intro h
    rcases h with h1 | h1 | h1
    · exact Bool.or_eq_true_iff.mpr (Or.inl (foldA_hasKey.mpr (Or.inl h1)))
    · exact Bool.or_eq_true_iff.mpr (Or.inl (foldA_hasKey.mpr (Or.inr h1)))
    · exact Bool.or_eq_true_iff.mpr (Or.inr (by simpa using h1))

theorem procLink_nodup (s : CrawlState) (l : String) (h : NodupKeys s.1) :
    NodupKeys (procLink base pageHrefs s l).1 := by
  rw [procLink_fst]; exact markVisitedL_nodup (foldA_nodup h)

theorem procLink_snd (s : CrawlState) (l : String) :
    (procLink base pageHrefs s l).2 = s.2 ++ [l] := rfl

theorem procLink_count_lt {U : List String} (s : CrawlState) (l : String)
    (hU : l ∈ U) (hf : lookupB s.1 l = some false) :
    UVcount U (procLink base pageHrefs s l).1 < UVcount U s.1 := by
  apply filterLen_lt hU
  · exact unvisitedB_true_iff.mpr (by rw [hf]; simp)
  · exact unvisitedB_false_iff.mpr (procLink_lookup_self base pageHrefs s l)
  · intro x _ hx
    by_cases he : x = l
    · rw [he] at hx
      rw [unvisitedB_false_iff.mpr (procLink_lookup_self base pageHrefs s l)] at hx
      cases hx
    · rw [unvisitedB_true_iff] at hx ⊢
      intro hc
      exact hx ((procLink_lookup_true base pageHrefs s l x he).mpr hc)

/-! ## The crawl invariant -/

theorem procLink_inv {U : List String} {st0 : List (String × Bool)}
    (hHU : ∀ l u, u ∈ (pageHrefs l).filterMap (keepHref base true) → u ∈ U)
    {s : CrawlState} {l : String}
    (hinv : CrawlInv U st0 s) (hd : isDetail l = true)
    (hf : lookupB s.1 l = some false) :
    CrawlInv U st0 (procLink base pageHrefs s l) := by
  obtain ⟨h1, h2, h3, h4, h5, h6⟩ := hinv
  have hlU : l ∈ U := h2 l (hasKey_of_lookup hf)
  have hlog : l ∉ s.2 := by
    intro hm
    have := (h4 l hm).2.2
    rw [hf] at this
    cases this
  refine ⟨procLink_nodup base pageHrefs s l h1, ?_, ?_, ?_, ?_, ?_⟩
  · intro u hu
    rcases (procLink_hasKey base pageHrefs s l u).mp hu with h | h | h
    · exact h2 u h
    · exact hHU l u h
    · exact h ▸ hlU
  · rw [procLink_snd]
    simpa [List.nodup_append] using ⟨h3, hlog⟩
  · rw [procLink_snd]
    intro u hu
    rcases List.mem_append.mp hu with hm | hm
    · have hprev := h4 u hm
      have hne : u ≠ l := by
        intro he
        rw [he, hf] at hprev
        exact absurd hprev.2.2 (by simp)
      exact ⟨hprev.1, hprev.2.1,
        (procLink_lookup_true base pageHrefs s l u hne).mpr hprev.2.2⟩
    · have he : u = l := by simpa using hm
      subst he
      refine ⟨hd, ?_, procLink_lookup_self base pageHrefs s u⟩
      intro hc
      have := h6 u hc
      rw [hf] at this
      cases this
  · intro u hu
    by_cases he : u = l
    · subst he
      exact Or.inr (by rw [procLink_snd]; simp)
    · rcases h5 u ((procLink_lookup_true base pageHrefs s l u he).mp hu) with h | h
      · exact Or.inl h
      · exact Or.inr (by rw [procLink_snd]; exact List.mem_append.mpr (Or.inl h))
  · intro u hu
    by_cases he : u = l
    · subst he
      exact procLink_lookup_self base pageHrefs s u
    · exact (procLink_lookup_true base pageHrefs s l u he).mpr (h6 u hu)

theorem procPass_inv {U : List String} {st0 : List (String × Bool)}
    (hHU : ∀ l u, u ∈ (pageHrefs l).filterMap (keepHref base true) → u ∈ U) :
    ∀ (batch : List String) (s : CrawlState),
      CrawlInv U st0 s → batch.Nodup →
      (∀ l ∈ batch, isDetail l = true ∧ lookupB s.1 l = some false) →
      CrawlInv U st0 (procPass base pageHrefs s batch) ∧
        UVcount U (procPass base pageHrefs s batch).1 + batch.length ≤
          UVcount U s.1 := by
  intro batch
  induction batch with
  | nil => intro s hinv _ _; exact ⟨hinv, by simp [procPass]⟩
  | cons l rest ih =>
    intro s hinv hnd hpre
    have hl := hpre l (List.mem_cons.mpr (Or.inl rfl))
    have hinv' := procLink_inv base pageHrefs hHU hinv hl.1 hl.2
    have hlt : UVcount U (procLink base pageHrefs s l).1 < UVcount U s.1 :=
      procLink_count_lt base pageHrefs s l
        ((hinv.2.1) l (hasKey_of_lookup hl.2)) hl.2
    have hpre' : ∀ l' ∈ rest,
        isDetail l' = true ∧ lookupB (procLink base pageHrefs s l).1 l' = some false := by
      intro l' hm
      have h := hpre l' (List.mem_cons.mpr (Or.inr hm))
      have hne : l' ≠ l := by
        intro he
        subst he
        exact (List.nodup_cons.mp hnd).1 hm
      exact ⟨h.1, procLink_lookup_false base pageHrefs s l l' hne h.2⟩
    have hstep : procPass base pageHrefs s (l :: rest) =
        procPass base pageHrefs (procLink base pageHrefs s l) rest := rfl
    have := ih (procLink base pageHrefs s l) hinv' (List.nodup_cons.mp hnd).2 hpre'
    rw [hstep]
    refine ⟨this.1, ?_⟩
    have h2 := this.2
    simp only [List.length_cons]
    omega

end CrawlLoop

/-! ## Snapshot lemmas and the bounded loop -/

theorem mem_snapshotOf {st : List (String × Bool)} {l : String} :
    l ∈ snapshotOf st ↔ ((l, false) ∈ st ∧ isDetail l = true) := by
  constructor
  · intro h
    rcases List.mem_map.mp h with ⟨p, hp, he⟩
    rcases List.mem_filter.mp hp with ⟨hmem, hcond⟩
    simp only [Bool.and_eq_true, Bool.not_eq_true'] at hcond
    obtain ⟨hb, hd⟩ := hcond
    obtain ⟨p1, p2⟩ := p
    simp only at he hb hd
    subst he
    subst hb
    exact ⟨hmem, hd⟩
  · rintro ⟨hm, hd⟩
    exact List.mem_map.mpr ⟨(l, false), List.mem_filter.mpr ⟨hm, by simp [hd]⟩, rfl⟩

theorem snapshot_nodup {st : List (String × Bool)} (h : NodupKeys st) :
    (snapshotOf st).Nodup := by
  induction st with
  | nil => exact List.nodup_nil
  | cons p rest ih =>
    simp only [NodupKeys] at h
    rcases hq : (!p.2 && isDetail p.1) with _ | _
    · simpa [snapshotOf, List.filter_cons, hq] using ih h.2
    · simp only [snapshotOf, List.filter_cons, hq, if_pos, List.map_cons]
      refine List.nodup_cons.mpr ⟨?_, by simpa [snapshotOf] using ih h.2⟩
      intro hmem
      have := (mem_snapshotOf.mp (by simpa [snapshotOf] using hmem)).1
      rw [hasKey_of_mem this] at h
      exact absurd h.1 (by simp)

theorem snapshot_empty_vals {st : List (String × Bool)}
    (h : snapshotOf st = []) :
    ∀ p ∈ st, isDetail p.1 = true → p.2 = true := by
  intro p hp hd
  by_contra hb
  have hfalse : p.2 = false := by simpa using hb
  obtain ⟨p1, p2⟩ := p
  simp only at hfalse hd
  subst hfalse
  have : p1 ∈ snapshotOf st := mem_snapshotOf.mpr ⟨hp, hd⟩
  rw [h] at this
  cases this

theorem snapshot_isEmpty_ne {st : List (String × Bool)} {l : String}
    (h : l ∈ snapshotOf st) : snapshotOf st ≠ [] := by
  intro he; rw [he] at h; cases h

section CrawlLoop2

variable (base : String) (pageHrefs : String → List (Option String))

theorem runLoop_inv {U : List String} {st0 : List (String × Bool)}
    (hHU : ∀ l u, u ∈ (pageHrefs l).filterMap (keepHref base true) → u ∈ U) :
    ∀ (fuel : Nat) (s : CrawlState), CrawlInv U st0 s → UVcount U s.1 ≤ fuel →
      CrawlInv U st0 (runLoop base pageHrefs fuel s) ∧
        snapshotOf (runLoop base pageHrefs fuel s).1 = [] := by
  intro fuel
  induction fuel with
  | zero =>
    intro s hinv hcount
    refine ⟨hinv, ?_⟩
    show snapshotOf s.1 = []
    rcases hsn : snapshotOf s.1 with _ | ⟨l, tl⟩
    · rfl
    · exfalso
      have hl : l ∈ snapshotOf s.1 := by rw [hsn]; exact List.mem_cons.mpr (Or.inl rfl)
      obtain ⟨hm, hd⟩ := mem_snapshotOf.mp hl
      have hlk : lookupB s.1 l = some false := lookupB_of_mem_nodup hinv.1 hm
      have hlu : l ∈ U := hinv.2.1 l (hasKey_of_lookup hlk)
      have hunv : unvisitedB s.1 l = true :=
        unvisitedB_true_iff.mpr (by rw [hlk]; simp)
      have : 0 < UVcount U s.1 :=
        List.length_pos.mpr (fun he => by
          have := List.mem_filter.mpr ⟨hlu, hunv⟩
          rw [he] at this
          cases this)
      omega
  | succ n ih =>
    intro s hinv hcount
    show CrawlInv U st0 (runLoop base pageHrefs (n + 1) s) ∧ _
    rcases hb : (snapshotOf s.1).isEmpty with _ | _
    · have hne : snapshotOf s.1 ≠ [] := by
        intro he; rw [he] at hb; cases hb
      have hbatch : ∀ l ∈ snapshotOf s.1,
          isDetail l = true ∧ lookupB s.1 l = some false := by
        intro l hl
        obtain ⟨hm, hd⟩ := mem_snapshotOf.mp hl
        exact ⟨hd, lookupB_of_mem_nodup hinv.1 hm⟩
      have hpass := procPass_inv base pageHrefs hHU (snapshotOf s.1) s hinv
        (snapshot_nodup hinv.1) hbatch
      have hlen : 0 < (snapshotOf s.1).length := List.length_pos.mpr hne
      have hcount' : UVcount U (procPass base pageHrefs s (snapshotOf s.1)).1 ≤ n := by
        have := hpass.2
        omega
      have := ih (procPass base pageHrefs s (snapshotOf s.1)) hpass.1 hcount'
      simpa [runLoop, hb] using this
    · have heq : snapshotOf s.1 = [] := by
        rcases hsn : snapshotOf s.1 with _ | _
        · rfl
        · rw [hsn] at hb; cases hb
      refine ⟨?_, ?_⟩ <;> simp [runLoop, hb, hinv, heq]

end CrawlLoop2

/-! ## Shape of a clean-title component -/

theorem prefixLoop_shape : ∀ (k : Nat) (cs p r : List Char),
    prefixLoop cs k = some (p, r) →
    p ≠ [] ∧ p.length ≤ k ∧ p.all (fun c => !pyIsSpace c) = true := by
  intro k
  induction k with
  | zero => intro cs p r h; cases h
  | succ k ih =>
    intro cs p r h
    unfold prefixLoop at h
    split at h
    · rename_i hcond
      simp only [Bool.and_eq_true, decide_eq_true_eq] at hcond
      split at h
      · cases h
        refine ⟨?_, Nat.le_of_eq hcond.1.1, hcond.1.2⟩
        intro he
        rw [he] at hcond
        simp at hcond
      · rcases ih cs p r h with ⟨h1, h2, h3⟩
        exact ⟨h1, Nat.le_succ_of_le h2, h3⟩
    · rcases ih cs p r h with ⟨h1, h2, h3⟩
      exact ⟨h1, Nat.le_succ_of_le h2, h3⟩

theorem clean_title_component {t p r : String}
    (h : clean_title t = (some p, r)) : componentOk p.toList = true := by
  by_cases ht : t = ""
  · rw [clean_title, if_pos ht] at h
    simp at h
  · rcases hm : ctMatch t.toList with _ | ⟨pl, rl⟩
    · rw [clean_title, if_neg ht, hm] at h
      simp at h
    · rw [clean_title, if_neg ht, hm] at h
      simp only [Prod.mk.injEq, Option.some.injEq] at h
      obtain ⟨h1, h2⟩ := h
      subst h1
      rcases prefixLoop_shape 6 t.toList pl rl hm with ⟨g1, g2, g3⟩
      simp only [componentOk, Bool.and_eq_true, decide_eq_true_eq]
      exact ⟨⟨by simpa using g1, g2⟩, g3⟩

/-! ## The claims -/

/-- C5 (counterexample): the claim asserts `series_tag` is always absent or
a dot-joined sequence of 1-2 short *alphanumeric* prefixes; but the regex
prefix class is `[^\s]` (any non-whitespace), so the title `"@#. Foo"`
yields the series tag `"@#"`, which contains characters that are neither
alphanumeric nor dots. -/
theorem C5_counterexample :
    (cleanTitleTwice "@#. Foo").1 = some "@#" ∧
    ("@#".toList.all fun c => c.isAlphanum || c = '.') = false := by decide

/-- C5 (amended): the clean-title transform is applied up to twice; the
spec's two examples hold, and the resulting series tag is always absent, a
single 1-6 character non-whitespace prefix, or two such prefixes joined by
a dot. -/
theorem C5_clean_title_transform :
    cleanTitleTwice "1.2. The Actual Title" = (some "1.2", "The Actual Title") ∧
    cleanTitleTwice "The Actual Title" = (none, "The Actual Title") ∧
    ∀ title : String,
      ((cleanTitleTwice title).1 = none ∧ (cleanTitleTwice title).2 = title) ∨
      (∃ p : String, (cleanTitleTwice title).1 = some p ∧ componentOk p.toList = true) ∨
      (∃ p q : String, (cleanTitleTwice title).1 = some (p ++ "." ++ q) ∧
        componentOk p.toList = true ∧ componentOk q.toList = true) := by
  refine ⟨by decide, by decide, ?_⟩
  intro title
  rcases h1 : clean_title title with ⟨_ | p, r⟩
  · left
    simp [cleanTitleTwice, h1]
  · rcases h2 : clean_title r with ⟨_ | q, r2⟩
    · right; left
      exact ⟨p, by simp [cleanTitleTwice, h1, h2], clean_title_component h1⟩
    · right; right
      exact ⟨p, q, by simp [cleanTitleTwice, h1, h2], clean_title_component h1,
        clean_title_component h2⟩

/-- C9 (counterexample): the claim asserts `markVisited` leaves
`discovered_at` unchanged; but the source uses `INSERT OR REPLACE`, which
rewrites the whole row with column defaults, resetting `discovered_at` to
the current time (5) instead of the original discovery time (3). -/
theorem C9_counterexample :
    ((mark_url_visited 5 (add_url 3 [] "u") "u").map fun r => r.discovered_at) = [5] ∧
    ((add_url 3 [] "u").map fun r => r.discovered_at) = [3] := by decide

/-- C9 (amended): `mark_url_visited` upserts a whole replacement row keyed
by the URL: the stored row under the key becomes `visited = true`,
`visited_at = now`, and `discovered_at` reset to `now` (the column default
of the replacing insert); a URL not yet present is created as visited; all
rows under other keys are untouched. -/
theorem C9_markVisited_upserts_whole_row :
    ∀ (now : Nat) (tbl : List UrlRow) (u : String),
      (∀ r ∈ mark_url_visited now tbl u, r.url = u →
        r = { url := u, visited := true, visited_at := some now,
              discovered_at := now }) ∧
      (∃ r ∈ mark_url_visited now tbl u, r.url = u) ∧
      ((mark_url_visited now tbl u).filter fun r => r.url ≠ u) =
        (tbl.filter fun r => r.url ≠ u) := by
  intro now tbl u
  unfold mark_url_visited
  split
  · rename_i hany
    refine ⟨?_, ?_, ?_⟩
    · intro r hr hru
      rcases List.mem_map.mp hr with ⟨q, hq, he⟩
      by_cases hqu : q.url = u
      · rw [if_pos hqu] at he
        exact he.symm
      · rw [if_neg hqu] at he
        rw [← he] at hru
        exact absurd hru hqu
    · rcases List.any_eq_true.mp hany with ⟨q, hq, hqu⟩
      simp only [decide_eq_true_eq] at hqu
      exact ⟨_, List.mem_map.mpr ⟨q, hq, rfl⟩, by rw [if_pos hqu]⟩
    · have hfil : ∀ tbl' : List UrlRow,
          ((tbl'.map fun q => if q.url = u then
              ({ url := u, visited := true, visited_at := some now,
                 discovered_at := now } : UrlRow) else q).filter
            fun r => r.url ≠ u) = tbl'.filter fun r => r.url ≠ u := by
        intro tbl'
        induction tbl' with
        | nil => rfl
        | cons q rest ihh =>
          by_cases hqu : q.url = u
          · simpa [List.filter_cons, hqu] using ihh
          · simpa [List.filter_cons, hqu] using ihh
      exact hfil tbl
  · rename_i hany
    have hnotin : ∀ r ∈ tbl, r.url ≠ u := by
      intro r hr he
      exact hany (List.any_eq_true.mpr ⟨r, hr, by simp [he]⟩)
    refine ⟨?_, ?_, ?_⟩
    · intro r hr hru
      rcases List.mem_append.mp hr with hm | hm
      · exact absurd hru (hnotin r hm)
      · simpa using hm
    · exact ⟨⟨u, true, some now, now⟩, List.mem_append.mpr (Or.inr (by simp)), rfl⟩
    · simp [List.filter_append, List.filter_cons]

/-- C10: a stored duration string parsing to the integer 0 is reported
with an absent duration by both presentation APIs, exactly like a missing
or non-numeric duration (the response guard tests the *truthiness* of
`duration_minutes`, and `0` is falsy). -/
theorem C10_zero_duration_absent :
    ∀ s : String, pyInt s = some 0 →
      duration_web (some s) = none ∧ duration_out (some s) = none ∧
      duration_web none = none ∧ duration_out none = none ∧
      duration_web (some "n/a") = none ∧ duration_out (some "n/a") = none := by
  intro s h
  have hne : s ≠ "" := by
    intro he
    rw [he] at h
    exact absurd h (by decide)
  refine ⟨?_, ?_, rfl, rfl, by decide, by decide⟩
  · simp [duration_web, hne, h]
  · simp [duration_out, hne, h]

/-- C10 (witness): the string `"0"` parses to 0 and is reported absent. -/
theorem C10_witness :
    pyInt "0" = some 0 ∧ duration_web (some "0") = none ∧
    duration_out (some "0") = none :=
  ⟨by decide, (C10_zero_duration_absent "0" (by decide)).1,
    (C10_zero_duration_absent "0" (by decide)).2.1⟩

/-- C7: the link classifier keeps a hyperlink exactly when its target is
truthy, contains an allow-list fragment, contains no deny-list fragment,
and (resolved against the base origin when not absolute) contains the site
domain; kept URLs are returned in page order whether or not they were
already known (the returned list does not depend on the frontier state);
the spec's three-anchor example returns exactly the one resolved URL. -/
theorem C7_link_classifier :
    (∀ (b : String) (flag : Bool) (hrefs : List (Option String))
        (st st' : List (String × Bool)),
      (get_all_links b flag hrefs st).2 = hrefs.filterMap (keepHref b flag) ∧
      (∀ u, u ∈ (get_all_links b flag hrefs st).2 ↔
        ∃ h ∈ hrefs, keepHref b flag h = some u) ∧
      (get_all_links b flag hrefs st).2 = (get_all_links b flag hrefs st').2) ∧
    (get_all_links "https://www.bigfinish.com" false
      [some "/releases/v/123", some "https://facebook.com/x", some "/basket/"] []).2 =
      ["https://www.bigfinish.com/releases/v/123"] := by
  constructor
  · intro b flag hrefs st st'
    have h1 : (get_all_links b flag hrefs st).2 = hrefs.filterMap (keepHref b flag) := by
      rw [gal_spec]
    have h2 : (get_all_links b flag hrefs st').2 = hrefs.filterMap (keepHref b flag) := by
      rw [gal_spec]
    refine ⟨h1, ?_, h1.trans h2.symm⟩
    intro u
    rw [h1]
    exact List.mem_filterMap
  · decide

/-- C3: the extraction steps are *not* independently optional: a page whose
description block has a title heading but no series heading makes line 283
(`data['series'].replace`) raise an uncaught `AttributeError`, and one with
a series heading but no title heading makes line 280 (`re.search` on a
`None` title) raise an uncaught `TypeError`; no record is persisted in
either case. A page with no description block at all still yields the
persisted mostly-absent record, as the claim expects. -/
theorem C3_extractor_crash :
    parse_data "https://www.bigfinish.com" "u" (some docNoSeries) =
      .error .attributeError ∧
    parse_data "https://www.bigfinish.com" "u" (some docNoTitle) =
      .error .typeError ∧
    parse_data "https://www.bigfinish.com" "u" (some emptyDoc) =
      .ok (some (emptyRecord "u")) := by decide

/-- C1 (counterexample): the claim says a URL is marked visited after its
processing regardless of the fetch outcome; but `mark_url_visited` is only
reached inside `if content:` (scraper.py line 364), so processing a detail
URL whose fetch fails leaves it unvisited. -/
theorem C1_counterexample :
    runIteration (fun _ => none) (fun _ => none) (fun _ => none)
        "https://www.bigfinish.com"
        [("https://www.bigfinish.com/releases/v/1", false)]
        "https://www.bigfinish.com/releases/v/1" =
      .ok [("https://www.bigfinish.com/releases/v/1", false)] ∧
    lookupB [("https://www.bigfinish.com/releases/v/1", false)]
        "https://www.bigfinish.com/releases/v/1" = some false := by decide

/-- C1 (amended): after one loop iteration that returns normally, the URL
is marked visited if and only if the fetch succeeded with a truthy
(non-empty) body — or it was already visited. A caught parse failure (null
record) still marks the URL visited; a fetch failure or empty body leaves
it unvisited (to be retried in the next pass); an uncaught extraction
exception aborts the iteration without marking. -/
theorem C1_mark_visited_iff_fetch_success :
    ∀ (fetch : String → Option String) (soupOf : String → Option Doc)
      (htmlLinks : String → Option (List (Option String)))
      (b : String) (st st' : List (String × Bool)) (link : String),
      runIteration fetch soupOf htmlLinks b st link = .ok st' →
      (lookupB st' link = some true ↔
        ((∃ c, fetch link = some c ∧ c ≠ "") ∨ lookupB st link = some true)) := by
  intro fetch soupOf htmlLinks b st st' link h
  rcases hf : fetch link with _ | c
  · simp only [runIteration, hf, Except.ok.injEq] at h
    subst h
    constructor
    · intro ht
      exact Or.inr ht
    · rintro (⟨c, hc, _⟩ | ht)
      · cases hc
      · exact ht
  · by_cases hc : c = ""
    · simp only [runIteration, hf, hc, if_pos, Except.ok.injEq] at h
      subst h
      constructor
      · intro ht
        exact Or.inr ht
      · rintro (⟨c', hc', hne⟩ | ht)
        · cases hc'
          exact absurd hc hne
        · exact ht
    · simp only [runIteration, hf, hc, if_neg, if_false] at h
      by_cases hd : isDetail link = true
      · simp only [hd, if_pos] at h
        rcases he : parse_data b link (soupOf c) with e | v
        · rw [he] at h
          simp only [bind, Except.bind] at h
          cases h
        · rw [he] at h
          simp only [bind, Except.bind, Except.ok.injEq] at h
          subst h
          constructor
          · intro _
            exact Or.inl ⟨c, rfl, hc⟩
          · intro _
            exact markVisitedL_lookup_self
      · simp only [hd, Bool.false_eq_true, if_false, bind, Except.bind,
          Except.ok.injEq] at h
        subst h
        constructor
        · intro _
          exact Or.inl ⟨c, rfl, hc⟩
        · intro _
          exact markVisitedL_lookup_self

/-- C1 (witness): a successful fetch of a truthy body whose parse fails at
soup construction (caught, yielding a null record) still marks the URL
visited. -/
theorem C1_witness :
    lookupB [("https://www.bigfinish.com/releases/v/1", true)]
        "https://www.bigfinish.com/releases/v/1" = some true ↔
      ((∃ c, (fun _ : String => some "<html>") "https://www.bigfinish.com/releases/v/1" =
          some c ∧ c ≠ "") ∨
        lookupB [("https://www.bigfinish.com/releases/v/1", false)]
          "https://www.bigfinish.com/releases/v/1" = some true) :=
  C1_mark_visited_iff_fetch_success (fun _ => some "<html>") (fun _ => none)
    (fun _ => none) "https://www.bigfinish.com"
    [("https://www.bigfinish.com/releases/v/1", false)]
    [("https://www.bigfinish.com/releases/v/1", true)]
    "https://www.bigfinish.com/releases/v/1" (by decide)

/-! ## Stable descending sort lemmas -/

theorem insertDesc_perm {α : Type} (x : Nat × α) (l : List (Nat × α)) :
    (insertDesc x l).Perm (x :: l) := by
  induction l with
  | nil => exact List.Perm.refl _
  | cons y ys ih =>
    unfold insertDesc
    split
    · exact List.Perm.refl _
    · exact (List.Perm.cons y ih).trans (List.Perm.swap x y ys)

theorem mem_insertDesc {α : Type} {x z : Nat × α} {l : List (Nat × α)}
    (h : z ∈ insertDesc x l) : z = x ∨ z ∈ l := by
  have := (insertDesc_perm x l).mem_iff.mp h
  simpa using this

theorem insertDesc_sorted {α : Type} {x : Nat × α} {l : List (Nat × α)}
    (h : sortedDesc l) : sortedDesc (insertDesc x l) := by
  induction l with
  | nil => exact List.pairwise_singleton _ _
  | cons y ys ih =>
    rcases List.pairwise_cons.mp h with ⟨hy, hys⟩
    unfold insertDesc
    split
    · rename_i hlt
      refine List.pairwise_cons.mpr ⟨?_, h⟩
      intro z hz
      rcases List.mem_cons.mp hz with hz | hz
      · subst hz; exact Nat.le_of_lt hlt
      · exact Nat.le_trans (hy z hz) (Nat.le_of_lt hlt)
    · rename_i hge
      refine List.pairwise_cons.mpr ⟨?_, ih hys⟩
      intro z hz
      rcases mem_insertDesc hz with hz | hz
      · subst hz; exact Nat.le_of_not_lt hge
      · exact hy z hz

theorem insertDesc_filter {α : Type} {x : Nat × α} {l : List (Nat × α)}
    (h : sortedDesc l) (k : Nat) :
    (insertDesc x l).filter (fun a => a.1 = k) =
      if x.1 = k then (l.filter fun a => a.1 = k) ++ [x]
      else l.filter fun a => a.1 = k := by
  induction l with
  | nil =>
    by_cases hk : x.1 = k <;> simp [insertDesc, List.filter_cons, hk]
  | cons y ys ih =>
    rcases List.pairwise_cons.mp h with ⟨hy, hys⟩
    unfold insertDesc
    split
    · rename_i hlt
      by_cases hk : x.1 = k
      · have hnil : ((y :: ys).filter fun a => a.1 = k) = [] := by
          rw [List.filter_eq_nil_iff]
          intro a ha
          simp only [decide_eq_true_eq]
          intro hak
          rcases List.mem_cons.mp ha with ha | ha
          · subst ha; omega
          · have := hy a ha; omega
        rw [if_pos hk, List.filter_cons_of_pos (by simp [hk]), hnil]
        rfl
      · rw [if_neg hk, List.filter_cons_of_neg (by simp [hk])]
    · rename_i hge
      by_cases hyk : y.1 = k <;> by_cases hk : x.1 = k <;>
        simp [List.filter_cons, hyk, hk, ih hys]

theorem foldInsert_sorted_stable {α : Type} :
    ∀ (l acc : List (Nat × α)), sortedDesc acc →
      sortedDesc (l.foldl (fun acc x => insertDesc x acc) acc) ∧
      ∀ k, ((l.foldl (fun acc x => insertDesc x acc) acc).filter fun a => a.1 = k) =
        (acc.filter fun a => a.1 = k) ++ (l.filter fun a => a.1 = k) := by
  intro l
  induction l with
  | nil => intro acc h; exact ⟨h, by simp⟩
  | cons x xs ih =>
    intro acc h
    rcases ih (insertDesc x acc) (insertDesc_sorted h) with ⟨h1, h2⟩
    refine ⟨h1, ?_⟩
    intro k
    rw [List.foldl_cons, h2 k, insertDesc_filter h k]
    by_cases hk : x.1 = k <;> simp [List.filter_cons, hk]

theorem pySortDesc_perm {α : Type} (l : List (Nat × α)) : (pySortDesc l).Perm l := by
  have : ∀ (l acc : List (Nat × α)),
      (l.foldl (fun acc x => insertDesc x acc) acc).Perm (acc ++ l) := by
    intro l
    induction l with
    | nil => intro acc; simp
    | cons x xs ih =>
      intro acc
      rw [List.foldl_cons]
      refine (ih (insertDesc x acc)).trans ?_
      refine (List.Perm.append_right xs (insertDesc_perm x acc)).trans ?_
      exact (List.perm_middle).symm
  simpa [pySortDesc] using this l []

theorem pySortDesc_sorted {α : Type} (l : List (Nat × α)) : sortedDesc (pySortDesc l) :=
  (foldInsert_sorted_stable l [] (List.Pairwise.nil)).1

theorem pySortDesc_stable {α : Type} (l : List (Nat × α)) (k : Nat) :
    ((pySortDesc l).filter fun a => a.1 = k) = l.filter fun a => a.1 = k := by
  have := (foldInsert_sorted_stable l [] (List.Pairwise.nil)).2 k
  simpa [pySortDesc] using this

theorem localScored_score {ratio : String → String → Nat} {q : String}
    {rows : List Record} : ∀ x ∈ localScored ratio q rows, 60 < x.1 := by
  intro x hx
  rcases List.mem_filterMap.mp hx with ⟨row, _, hf⟩
  rcases ht : row.title with _ | t
  · rw [ht] at hf; cases hf
  · rw [ht] at hf
    simp only at hf
    split at hf
    · cases hf
    · split at hf
      · rename_i hsc
        cases hf
        exact hsc
      · cases hf

theorem liveScored_ok {ratio : String → String → Nat} {q : String} :
    ∀ {rows : List Record}, (∀ r ∈ rows, r.title ≠ none) →
      ∃ scored, liveScored ratio q rows = .ok scored := by
  intro rows
  induction rows with
  | nil => exact fun _ => ⟨[], rfl⟩
  | cons row rest ih =>
    intro h
    rcases ih (fun r hr => h r (List.mem_cons.mpr (Or.inr hr))) with ⟨tl, htl⟩
    rcases ht : row.title with _ | t
    · exact absurd ht (h row (List.mem_cons.mpr (Or.inl rfl)))
    · refine ⟨(ratio (pyLower q) (pyLower t), row) :: tl, ?_⟩
      simp [liveScored, ht, htl, bind, Except.bind]

/-- C8 (counterexample): the claim says the live variant keeps all
resolved candidates on any candidate list; but a candidate whose stored
title is NULL makes `match['title'].lower()` (web-api.py line 42) raise an
uncaught `AttributeError` — nothing is kept. (The local variant instead
skips such rows via its `if row['title']` guard.) -/
theorem C8_counterexample :
    liveRank (fun _ _ => 100) "q" [emptyRecord "u"] = .error .attributeError := by
  decide

/-- C8 (amended): on candidates that bear titles, the two ranking policies
are as claimed: the local variant scores case-insensitively, discards
every candidate not strictly above the threshold 60 (hence every candidate
below 60), and keeps at most the top 5 of the stable descending sort; the
live variant applies no threshold or cap and returns all scored candidates
stably sorted by descending score; in both, ties preserve input encounter
order (the filtered-by-score sublists of the sorted output equal those of
the input). A title-less candidate is skipped by the local variant and
raises in the live variant. -/
theorem C8_ranking_policies :
    ∀ (ratio : String → String → Nat) (q : String) (rows : List Record),
      (localTop ratio q rows).length ≤ 5 ∧
      (∀ x ∈ localTop ratio q rows, 60 < x.1) ∧
      localTop ratio q rows = (pySortDesc (localScored ratio q rows)).take 5 ∧
      sortedDesc (pySortDesc (localScored ratio q rows)) ∧
      (∀ k, ((pySortDesc (localScored ratio q rows)).filter fun a => a.1 = k) =
        (localScored ratio q rows).filter fun a => a.1 = k) ∧
      ((∀ r ∈ rows, r.title ≠ none) →
        ∃ scored, liveScored ratio q rows = .ok scored ∧
          liveRank ratio q rows = .ok (pySortDesc scored) ∧
          (pySortDesc scored).Perm scored ∧
          sortedDesc (pySortDesc scored) ∧
          ∀ k, ((pySortDesc scored).filter fun a => a.1 = k) =
            scored.filter fun a => a.1 = k) := by
  intro ratio q rows
  refine ⟨?_, ?_, rfl, pySortDesc_sorted _, pySortDesc_stable _, ?_⟩
  · exact (List.length_take_le 5 _).trans (by omega) |>.trans (Nat.le_refl 5)
  · intro x hx
    have hmem : x ∈ pySortDesc (localScored ratio q rows) :=
      List.mem_of_mem_take hx
    exact localScored_score x ((pySortDesc_perm _).mem_iff.mp hmem)
  · intro htitles
    rcases liveScored_ok htitles with ⟨scored, hs⟩
    exact ⟨scored, hs, by simp [liveRank, hs, bind, Except.bind],
      pySortDesc_perm scored, pySortDesc_sorted scored, pySortDesc_stable scored⟩

/-- C8 (witness): a single titled candidate is ranked by both policies. -/
theorem C8_witness :
    (localTop (fun _ _ => 70) "q"
      [{ emptyRecord "u" with title := some "Doctor Who" }]).length ≤ 5 ∧
    ∃ scored, liveScored (fun _ _ => 70) "q"
        [{ emptyRecord "u" with title := some "Doctor Who" }] = .ok scored ∧
      liveRank (fun _ _ => 70) "q"
        [{ emptyRecord "u" with title := some "Doctor Who" }] = .ok (pySortDesc scored) ∧
      (pySortDesc scored).Perm scored ∧
      sortedDesc (pySortDesc scored) ∧
      ∀ k, ((pySortDesc scored).filter fun a => a.1 = k) =
        scored.filter fun a => a.1 = k := by
  have h := C8_ranking_policies (fun _ _ => 70) "q"
    [{ emptyRecord "u" with title := some "Doctor Who" }]
  refine ⟨h.1, h.2.2.2.2.2 ?_⟩
  intro r hr
  rcases List.mem_singleton.mp hr with rfl
  simp

/-! ## ISBN field invariant through the extraction steps -/

theorem step_product_isbn {d : Doc} {r r' : Record}
    (h : step_product d r = .ok r') : r'.isbn = r.isbn := by
  rcases hpd : d.productDesc with _ | pd
  · simp only [step_product, hpd, Except.ok.injEq] at h
    subst h
    rfl
  · rcases hh3 : pd.h3 with _ | rawt
    · simp [step_product, hpd, hh3] at h
    · rcases hh6 : pd.h6 with _ | s6
      · rcases hct1 : clean_title (pyStrip rawt) with ⟨_ | p1, r1⟩
        · simp [step_product, hpd, hh3, hh6, hct1, Option.map_some'] at h
        · rcases hct2 : clean_title r1 with ⟨_ | p2, r2⟩
          · simp [step_product, hpd, hh3, hh6, hct1, hct2, Option.map_some'] at h
          · simp [step_product, hpd, hh3, hh6, hct1, hct2, Option.map_some'] at h
      · rcases hct1 : clean_title (pyStrip rawt) with ⟨_ | p1, r1⟩
        · simp only [step_product, hpd, hh3, hh6, hct1, Option.map_some',
            Except.ok.injEq] at h
          subst h
          rfl
        · rcases hct2 : clean_title r1 with ⟨_ | p2, r2⟩
          · simp only [step_product, hpd, hh3, hh6, hct1, hct2, Option.map_some',
              Except.ok.injEq] at h
            subst h
            rfl
          · simp only [step_product, hpd, hh3, hh6, hct1, hct2, Option.map_some',
              Except.ok.injEq] at h
            subst h
            rfl

theorem step_cover_isbn (b : String) (d : Doc) (r : Record) :
    (step_cover b d r).isbn = r.isbn := by
  rcases hc : d.coverDiv with _ | cd
  · simp [step_cover, hc]
  · rcases hi : cd.img with _ | img
    · simp [step_cover, hc, hi]
    · simp [step_cover, hc, hi]

theorem step_release_isbn (d : Doc) (r : Record) :
    (step_release d r).isbn = r.isbn := by
  rcases hc : d.releaseDateDiv with _ | txt
  · simp [step_release, hc]
  · rcases hp : parse_release_date (pyStrip txt) with _ | pd
    · simp [step_release, hc, hp]
    · simp [step_release, hc, hp]

theorem step_paras_isbn (d : Doc) (r : Record) :
    (step_paras d r).isbn = r.isbn := by
  rcases hc : d.productDesc with _ | pd
  · simp [step_paras, hc]
  · rcases hp : pd.paragraphs with _ | ⟨p0, ps⟩
    · simp [step_paras, hc, hp]
    · rcases hps : ps with _ | ⟨p1, ps2⟩ <;> subst hps <;> simp [step_paras, hc, hp]

theorem tab6duration_isbn {c : String} {r r' : Record}
    (h : tab6duration c r = .ok r') : r'.isbn = r.isbn := by
  unfold tab6duration at h
  split at h
  · rcases he : extractAfter "Duration: " c with e | v
    · rw [he] at h
      simp only [bind, Except.bind] at h
      cases h
    · rw [he] at h
      simp only [bind, Except.bind, pure, Except.pure, Except.ok.injEq] at h
      subst h
      rfl
  · simp only [pure, Except.pure, Except.ok.injEq] at h
    subst h
    rfl

theorem tab6isbn_isbn {c : String} {r r' : Record}
    (h : tab6isbn c r = .ok r') : r'.isbn = r.isbn ∨ isbnOk r'.isbn := by
  unfold tab6isbn at h
  split at h
  · rcases he : extractAfter "Digital Retail ISBN: " c with e | v
    · rw [he] at h
      simp only [bind, Except.bind] at h
      cases h
    · rw [he] at h
      simp only [bind, Except.bind, pure, Except.pure, Except.ok.injEq] at h
      subst h
      right
      by_cases hm : isbnMatch v = true
      · exact Or.inr ⟨v, by simp [hm], hm⟩
      · exact Or.inl (by simp [hm])
  · split at h
    · rcases he : extractAfter "Physical Retail ISBN: " c with e | v
      · rw [he] at h
        simp only [bind, Except.bind] at h
        cases h
      · rw [he] at h
        simp only [bind, Except.bind, pure, Except.pure, Except.ok.injEq] at h
        subst h
        right
        by_cases hm : isbnMatch v = true
        · exact Or.inr ⟨v, by simp [hm], hm⟩
        · exact Or.inl (by simp [hm])
    · simp only [pure, Except.pure, Except.ok.injEq] at h
      subst h
      exact Or.inl rfl

theorem step_tab6content_isbn {c : String} {r r' : Record}
    (h : step_tab6content c r = .ok r') : r'.isbn = r.isbn ∨ isbnOk r'.isbn := by
  unfold step_tab6content at h
  rcases h1 : tab6duration c { r with production := some c } with e | r1
  · rw [h1] at h
    simp only [bind, Except.bind] at h
    cases h
  · rw [h1] at h
    simp only [bind, Except.bind] at h
    rcases tab6isbn_isbn h with h2 | h2
    · left
      rw [h2, tab6duration_isbn h1]
    · exact Or.inr h2

theorem step_tab1_isbn (d : Doc) (r : Record) : (step_tab1 d r).isbn = r.isbn := by
  rcases hc : d.tab1 with _ | tb <;> simp [step_tab1, hc]

theorem step_tab2_isbn (d : Doc) (r : Record) : (step_tab2 d r).isbn = r.isbn := by
  rcases hc : d.tab2 with _ | tb <;> simp [step_tab2, hc]

theorem step_tab5_isbn (d : Doc) (r : Record) : (step_tab5 d r).isbn = r.isbn := by
  rcases hc : d.tab5 with _ | tb <;> simp [step_tab5, hc]

theorem step_tabs_isbn {d : Doc} {r r' : Record}
    (h : step_tabs d r = .ok r') : r'.isbn = r.isbn ∨ isbnOk r'.isbn := by
  have h125 : (step_tab5 d (step_tab2 d (step_tab1 d r))).isbn = r.isbn := by
    rw [step_tab5_isbn, step_tab2_isbn, step_tab1_isbn]
  rcases hc : d.tab6 with _ | tb
  · rw [step_tabs, hc] at h
    simp only [Except.ok.injEq] at h
    subst h
    exact Or.inl h125
  · rw [step_tabs, hc] at h
    rcases step_tab6content_isbn h with h2 | h2
    · exact Or.inl (h2.trans h125)
    · exact Or.inr h2

/-- C4: every record parse_data successfully produces (and hence every
record persisted into the content table by `save_content`) carries either
an absent ISBN or one accepted by
`re.match(r'\d{3}-\d{1,5}-\d{1,7}-\d{1}', ...)`: an invalid extraction
is discarded to absent, never retained as raw text. -/
theorem C4_isbn_validated :
    ∀ (b url : String) (soup : Option Doc) (r : Record),
      parse_data b url soup = .ok (some r) →
      r.isbn = none ∨ ∃ v, r.isbn = some v ∧ isbnMatch v = true := by
  intro b url soup r h
  rcases soup with _ | d
  · simp [parse_data] at h
  · simp only [parse_data] at h
    rcases h1 : step_product d (emptyRecord url) with e | r1
    · rw [h1] at h
      simp only [bind, Except.bind] at h
      cases h
    · rw [h1] at h
      simp only [bind, Except.bind] at h
      rcases h5 : step_tabs d (step_paras d (step_release d (step_cover b d r1)))
        with e | r5
      · rw [h5] at h
        simp only [bind, Except.bind] at h
        cases h
      · rw [h5] at h
        simp only [bind, Except.bind, Except.ok.injEq, Option.some.injEq] at h
        subst h
        have e1 : r1.isbn = none := by
          rw [step_product_isbn h1]
          rfl
        have e4 : (step_paras d (step_release d (step_cover b d r1))).isbn = none := by
          rw [step_paras_isbn, step_release_isbn, step_cover_isbn, e1]
        rcases step_tabs_isbn h5 with h6 | h6
        · left
          rw [h6, e4]
        · exact h6

/-- C4 (witness): a production tab with a duration and a digital-retail
ISBN yields a persisted record whose ISBN was validated. -/
theorem C4_witness :
    parse_data "b" "u" (some docTab6) = .ok (some recTab6) ∧
    (recTab6.isbn = none ∨ ∃ v, recTab6.isbn = some v ∧ isbnMatch v = true) :=
  ⟨by decide, C4_isbn_validated "b" "u" (some docTab6) recTab6 (by decide)⟩

/-! ## Collapsing the extraction error path when no page crashes -/

theorem procLinkE_ok {pageParse : String → Except PyErr (Option Record)}
    (hok : ∀ u, isDetail u = true → ∃ r, pageParse u = .ok r)
    (base : String) (pageHrefs : String → List (Option String))
    (s : CrawlState) (l : String) :
    procLinkE base pageHrefs pageParse s l = .ok (procLink base pageHrefs s l) := by
  unfold procLinkE
  by_cases hd : isDetail l = true
  · obtain ⟨r, hr⟩ := hok l hd
    rw [if_pos hd, hr]
  · rw [if_neg hd]

theorem procPassE_ok {pageParse : String → Except PyErr (Option Record)}
    (hok : ∀ u, isDetail u = true → ∃ r, pageParse u = .ok r)
    (base : String) (pageHrefs : String → List (Option String)) :
    ∀ (batch : List String) (s : CrawlState),
      procPassE base pageHrefs pageParse s batch
        = .ok (procPass base pageHrefs s batch) := by
  intro batch
  induction batch with
  | nil => intro s; rfl
  | cons l rest ih =>
    intro s
    simp only [procPassE]
    rw [procLinkE_ok hok]
    have hfold : procPass base pageHrefs s (l :: rest)
        = procPass base pageHrefs (procLink base pageHrefs s l) rest := rfl
    rw [hfold]
    exact ih (procLink base pageHrefs s l)

theorem runLoopE_ok {pageParse : String → Except PyErr (Option Record)}
    (hok : ∀ u, isDetail u = true → ∃ r, pageParse u = .ok r)
    (base : String) (pageHrefs : String → List (Option String)) :
    ∀ (fuel : Nat) (s : CrawlState),
      runLoopE base pageHrefs pageParse fuel s
        = .ok (runLoop base pageHrefs fuel s) := by
  intro fuel
  induction fuel with
  | zero => intro s; rfl
  | succ n ih =>
    intro s
    rcases hb : (snapshotOf s.1).isEmpty with _ | _
    · simp only [runLoopE, runLoop, hb, Bool.false_eq_true, if_false]
      rw [procPassE_ok hok]
      exact ih _
    · simp only [runLoopE, runLoop, hb, if_true]

/-- C2 (counterexample): the original whole-loop guarantee fails on a
realization of its own premise. On the two-page graph where seeded detail
page 1 links to detail page 2, with page 1 a real crashing page (a title
heading but no series heading, raising the uncaught `AttributeError` of
line 283), the run aborts during the first pass: no terminal state is
reached and neither detail page is marked visited. The claim's premise
licenses total fetches, not crash-free extraction. -/
theorem C2_counterexample :
    runLoopE "https://www.bigfinish.com" phW ppCrash 2 ([(v1url, false)], [])
        = .error PyErr.attributeError ∧
    ppCrash v1url = .error PyErr.attributeError := by decide

/-- C2: over any finite URL universe in which every detail page's
extraction completes without an uncaught exception, starting from any
well-formed frontier, the crawl loop run for `|U|` passes never aborts and
reaches the empty-unvisited terminal state (so the `while True` of
`Scraper.run` breaks); no URL is fetched twice; only unvisited detail URLs
are ever fetched; and every detail URL known at the end — including those
discovered mid-run — is visited, and was fetched during the run unless it
was already visited initially. Fetches are total here, per the claim's
premise that every fetch yields a fixed set of discoverable links
(`pageHrefs`); crash-free extraction (`pageParse`) is the extra proviso
the premise does not grant, without which the loop can abort mid-pass (see
the counterexample). -/
theorem C2_frontier_termination :
    ∀ (b : String) (pageHrefs : String → List (Option String))
      (pageParse : String → Except PyErr (Option Record))
      (U : List String) (st0 : List (String × Bool)) (fuel : Nat),
      (∀ u, isDetail u = true → ∃ r, pageParse u = .ok r) →
      (∀ l u, u ∈ (pageHrefs l).filterMap (keepHref b true) → u ∈ U) →
      NodupKeys st0 →
      (∀ u, hasKey st0 u = true → u ∈ U) →
      U.length ≤ fuel →
      runLoopE b pageHrefs pageParse fuel (st0, [])
          = .ok (runLoop b pageHrefs fuel (st0, [])) ∧
      snapshotOf (runLoop b pageHrefs fuel (st0, [])).1 = [] ∧
      (runLoop b pageHrefs fuel (st0, [])).2.Nodup ∧
      (∀ u ∈ (runLoop b pageHrefs fuel (st0, [])).2,
        isDetail u = true ∧ lookupB st0 u ≠ some true) ∧
      (∀ u, hasKey (runLoop b pageHrefs fuel (st0, [])).1 u = true →
        isDetail u = true →
        lookupB (runLoop b pageHrefs fuel (st0, [])).1 u = some true) ∧
      (∀ u, hasKey (runLoop b pageHrefs fuel (st0, [])).1 u = true →
        isDetail u = true → lookupB st0 u ≠ some true →
        u ∈ (runLoop b pageHrefs fuel (st0, [])).2) := by
  intro b pageHrefs pageParse U st0 fuel hparse hHU hnd hkeys hfuel
  have hinv0 : CrawlInv U st0 (st0, []) :=
    ⟨hnd, hkeys, List.nodup_nil, by simp, fun u hu => Or.inl hu, fun u hu => hu⟩
  have hcount0 : UVcount U st0 ≤ fuel :=
    Nat.le_trans (List.length_filter_le _ _) hfuel
  obtain ⟨hinv, hsnap⟩ := runLoop_inv b pageHrefs hHU fuel (st0, []) hinv0 hcount0
  have hvisited : ∀ u, hasKey (runLoop b pageHrefs fuel (st0, [])).1 u = true →
      isDetail u = true →
      lookupB (runLoop b pageHrefs fuel (st0, [])).1 u = some true := by
    intro u hu hd
    rcases lookup_isSome_of_hasKey hu with ⟨bv, hb⟩
    rcases bv with _ | _
    · exfalso
      have hm := mem_of_lookupB hb
      have := snapshot_empty_vals hsnap (u, false) hm hd
      cases this
    · exact hb
  refine ⟨runLoopE_ok hparse b pageHrefs fuel (st0, []), hsnap, hinv.2.2.1, ?_,
    hvisited, ?_⟩
  · intro u hu
    have := hinv.2.2.2.1 u hu
    exact ⟨this.1, this.2.1⟩
  · intro u hu hd h0
    rcases hinv.2.2.2.2.1 u (hvisited u hu hd) with hc | hc
    · exact absurd hc h0
    · exact hc

/-- C2 (witness): on the two-page graph where page 1 is seeded and links
to page 2, with every page extracting cleanly, two passes run without an
abort and reach the terminal state with a duplicate-free fetch log. -/
theorem C2_witness :
    runLoopE "https://www.bigfinish.com" phW ppOk 2 ([(v1url, false)], [])
        = .ok (runLoop "https://www.bigfinish.com" phW 2 ([(v1url, false)], [])) ∧
    snapshotOf (runLoop "https://www.bigfinish.com" phW 2 ([(v1url, false)], [])).1 = [] ∧
    (runLoop "https://www.bigfinish.com" phW 2 ([(v1url, false)], [])).2.Nodup := by
  have hu : ∀ l u, u ∈ (phW l).filterMap (keepHref "https://www.bigfinish.com" true) →
      u ∈ [v1url, v2url] := by
    intro l u hmem
    by_cases hl : l = v1url
    · subst hl
      have he : (phW v1url).filterMap (keepHref "https://www.bigfinish.com" true) =
          [v2url] := by decide
      rw [he] at hmem
      simp at hmem
      simp [hmem]
    · have he : phW l = [] := by simp [phW, hl]
      rw [he] at hmem
      simp at hmem
  have hk : ∀ u, hasKey [(v1url, false)] u = true → u ∈ [v1url, v2url] := by
    intro u hku
    simp [hasKey] at hku
    simp [hku]
  have h := C2_frontier_termination "https://www.bigfinish.com" phW ppOk [v1url, v2url]
    [(v1url, false)] 2 (fun u _ => ⟨none, rfl⟩) hu ⟨rfl, trivial⟩ hk (by decide)
  exact ⟨h.1, h.2.1, h.2.2.1⟩

/-! ## Character-class lemmas for the date normalizer -/

theorem toNat_ofNat_small {n : Nat} (h : n < 55296) : (Char.ofNat n).toNat = n := by
  unfold Char.ofNat
  rw [dif_pos (Or.inl h)]
  rfl

theorem toLower_eq_self {c : Char} (h : ¬(65 ≤ c.toNat ∧ c.toNat ≤ 90)) :
    c.toLower = c := by
  unfold Char.toLower
  rw [if_neg (by omega)]

theorem toNat_toLower_upper {c : Char} (h : 65 ≤ c.toNat ∧ c.toNat ≤ 90) :
    c.toLower.toNat = c.toNat + 32 := by
  unfold Char.toLower
  rw [if_pos (by omega)]
  exact toNat_ofNat_small (by omega)

theorem alpha_toNat {c : Char} (h : isAsciiAlpha c = true) :
    (97 ≤ c.toNat ∧ c.toNat ≤ 122) ∨ (65 ≤ c.toNat ∧ c.toNat ≤ 90) := by
  simp only [isAsciiAlpha, Bool.or_eq_true, Bool.and_eq_true, decide_eq_true_eq] at h
  exact h

theorem toLower_alpha_bounds {c : Char} (h : isAsciiAlpha c = true) :
    97 ≤ c.toLower.toNat ∧ c.toLower.toNat ≤ 122 := by
  rcases alpha_toNat h with h1 | h1
  · rw [toLower_eq_self (by omega)]
    exact h1
  · rw [toNat_toLower_upper h1]
    omega

theorem isAsciiAlpha_toLower {c : Char} (h : isAsciiAlpha c = true) :
    isAsciiAlpha c.toLower = true := by
  have := toLower_alpha_bounds h
  simp only [isAsciiAlpha, Bool.or_eq_true, Bool.and_eq_true, decide_eq_true_eq]
  exact Or.inl this

theorem toLower_toLower (c : Char) : c.toLower.toLower = c.toLower := by
  by_cases h : 65 ≤ c.toNat ∧ c.toNat ≤ 90
  · have := toNat_toLower_upper h
    exact toLower_eq_self (by omega)
  · rw [toLower_eq_self h]
    exact toLower_eq_self h

theorem map_toLower_idem (l : List Char) :
    (l.map Char.toLower).map Char.toLower = l.map Char.toLower := by
  rw [List.map_map]
  exact List.map_congr_left fun c _ => toLower_toLower c

theorem toLower_digit {c : Char} (h : isAsciiDigit c = true) : c.toLower = c := by
  simp only [isAsciiDigit, Bool.and_eq_true, decide_eq_true_eq] at h
  exact toLower_eq_self (by omega)

theorem map_toLower_digits {l : List Char} (h : l.all isAsciiDigit = true) :
    l.map Char.toLower = l := by
  induction l with
  | nil => rfl
  | cons c rest ih =>
    simp only [List.all_cons, Bool.and_eq_true] at h
    simp [toLower_digit h.1, ih h.2]

theorem alpha_not_space {c : Char} (h : isAsciiAlpha c = true) :
    pyIsSpace c = false := by
  rcases hs : pyIsSpace c with _ | _
  · rfl
  · exfalso
    simp only [pyIsSpace, Bool.or_eq_true, decide_eq_true_eq] at hs
    rcases hs with (((((rfl | rfl) | rfl) | rfl) | rfl) | rfl) <;> exact absurd h (by decide)

theorem digit_not_space {c : Char} (h : isAsciiDigit c = true) :
    pyIsSpace c = false := by
  rcases hs : pyIsSpace c with _ | _
  · rfl
  · exfalso
    simp only [pyIsSpace, Bool.or_eq_true, decide_eq_true_eq] at hs
    rcases hs with (((((rfl | rfl) | rfl) | rfl) | rfl) | rfl) <;> exact absurd h (by decide)

theorem digit_not_alpha {c : Char} (h : isAsciiDigit c = true) :
    isAsciiAlpha c = false := by
  rcases ha : isAsciiAlpha c with _ | _
  · rfl
  · exfalso
    simp only [isAsciiDigit, Bool.and_eq_true, decide_eq_true_eq] at h
    rcases alpha_toNat ha with h1 | h1 <;> omega

/-! ## takeWhile / dropWhile / stripEnd lemmas -/

theorem takeWhile_append_all {p : Char → Bool} {xs : List Char}
    (h : xs.all p = true) (ys : List Char) :
    (xs ++ ys).takeWhile p = xs ++ ys.takeWhile p := by
  induction xs with
  | nil => rfl
  | cons c rest ih =>
    simp only [List.all_cons, Bool.and_eq_true] at h
    simp [List.takeWhile_cons, h.1, ih h.2]

theorem dropWhile_append_all {p : Char → Bool} {xs : List Char}
    (h : xs.all p = true) (ys : List Char) :
    (xs ++ ys).dropWhile p = ys.dropWhile p := by
  induction xs with
  | nil => rfl
  | cons c rest ih =>
    simp only [List.all_cons, Bool.and_eq_true] at h
    simp [List.dropWhile_cons, h.1, ih h.2]

theorem dropWhile_head_false {p : Char → Bool} :
    ∀ {l : List Char} {c : Char} {rest : List Char},
      l.dropWhile p = c :: rest → p c = false := by
  intro l
  induction l with
  | nil => intro c rest h; cases h
  | cons a as ih =>
    intro c rest h
    rcases hp : p a with _ | _
    · rw [List.dropWhile_cons, hp] at h
      simp only [Bool.false_eq_true, if_false] at h
      cases h
      exact hp
    · rw [List.dropWhile_cons, hp] at h
      simp only [if_true] at h
      exact ih h

theorem dropWhile_idem {p : Char → Bool} (l : List Char) :
    (l.dropWhile p).dropWhile p = l.dropWhile p := by
  rcases hd : l.dropWhile p with _ | ⟨c, rest⟩
  · rfl
  · rw [List.dropWhile_cons, dropWhile_head_false hd]
    simp

theorem stripEnd_append_last {xs ys : List Char} {c : Char}
    (hl : xs.getLast? = some c) (hc : pyIsSpace c = false) :
    stripEnd (xs ++ ys) = xs ++ stripEnd ys := by
  unfold stripEnd
  rw [List.reverse_append, List.dropWhile_append]
  rcases he : (ys.reverse.dropWhile pyIsSpace).isEmpty with _ | _
  · rw [if_neg (by simp)]
    rw [List.reverse_append, List.reverse_reverse]
  · rw [if_pos rfl]
    have hnil : ys.reverse.dropWhile pyIsSpace = [] := by
      rcases hh : ys.reverse.dropWhile pyIsSpace with _ | _
      · rfl
      · rw [hh] at he
        cases he
    rw [hnil]
    rcases hxr : xs.reverse with _ | ⟨c', rest⟩
    · rw [List.reverse_eq_nil_iff] at hxr
      subst hxr
      cases hl
    · have hc' : c' = c := by
        have h1 : xs.reverse.head? = some c' := by rw [hxr]; rfl
        rw [List.head?_reverse, hl] at h1
        exact (Option.some.inj h1).symm
      rw [hc'] at hxr ⊢
      rw [List.dropWhile_cons, hc]
      simp only [Bool.false_eq_true, if_false]
      rw [← hxr, List.reverse_reverse]
      simp

theorem stripEnd_idem (l : List Char) : stripEnd (stripEnd l) = stripEnd l := by
  unfold stripEnd
  rw [List.reverse_reverse, dropWhile_idem]

theorem isPrefixOf_append_self : ∀ (l r : List Char), l.isPrefixOf (l ++ r) = true
  | [], _ => by simp [List.isPrefixOf]
  | c :: l, r => by
    simp only [List.cons_append, List.isPrefixOf_cons₂_self]
    exact isPrefixOf_append_self l r

/-! ## Date-normalizer shape lemmas (claim C6) -/

theorem toList_mk (l : List Char) : (⟨l⟩ : String).toList = l := rfl

theorem toList_append (s t : String) : (s ++ t).toList = s.toList ++ t.toList := rfl

theorem natOfDigits_four_le {d1 d2 d3 d4 : Char}
    (h : ([d1, d2, d3, d4]).all isAsciiDigit = true) :
    natOfDigits [d1, d2, d3, d4] ≤ 9999 := by
  simp only [List.all_cons, List.all_nil, Bool.and_eq_true, isAsciiDigit,
    decide_eq_true_eq, and_true] at h
  simp only [natOfDigits, List.foldl]
  omega

theorem all_toLower_alpha {l : List Char} (h : l.all isAsciiAlpha = true) :
    (l.map Char.toLower).all isAsciiAlpha = true := by
  rw [List.all_map, List.all_eq_true]
  intro c hc
  simp only [Function.comp_apply]
  exact isAsciiAlpha_toLower (List.all_eq_true.mp h c hc)

theorem dropWhile_cons_false {p : Char → Bool} {c : Char} (h : p c = false)
    (l : List Char) : (c :: l).dropWhile p = c :: l := by
  rw [List.dropWhile_cons, h]
  simp

/-- Attempting `([a-zA-Z]+)\s+(\d{4})` at the start of
`<letters><space><4 digits><anything>` captures exactly the letter run and
the four digits. -/
theorem matchMonthYearAt_exact {lm : List Char} {d1 d2 d3 d4 : Char}
    (ltS : List Char)
    (hne : lm ≠ [])
    (ha : lm.all isAsciiAlpha = true)
    (hd : ([d1, d2, d3, d4]).all isAsciiDigit = true) :
    matchMonthYearAt (lm ++ ' ' :: d1 :: d2 :: d3 :: d4 :: ltS)
      = some (lm, [d1, d2, d3, d4]) := by
  have hd1 : isAsciiDigit d1 = true := by
    simp only [List.all_cons, Bool.and_eq_true] at hd
    exact hd.1
  have htake : (lm ++ ' ' :: d1 :: d2 :: d3 :: d4 :: ltS).takeWhile isAsciiAlpha
      = lm := by
    rw [takeWhile_append_all ha, List.takeWhile_cons,
      show isAsciiAlpha ' ' = false from by decide]
    simp
  have hdrop : (lm ++ ' ' :: d1 :: d2 :: d3 :: d4 :: ltS).dropWhile isAsciiAlpha
      = ' ' :: d1 :: d2 :: d3 :: d4 :: ltS := by
    rw [dropWhile_append_all ha, List.dropWhile_cons,
      show isAsciiAlpha ' ' = false from by decide]
    simp
  have hws : (' ' :: d1 :: d2 :: d3 :: d4 :: ltS).takeWhile pyIsSpace = [' '] := by
    rw [List.takeWhile_cons, show pyIsSpace ' ' = true from by decide]
    simp only [if_true]
    rw [List.takeWhile_cons, digit_not_space hd1]
    simp
  have hr2 : (' ' :: d1 :: d2 :: d3 :: d4 :: ltS).dropWhile pyIsSpace
      = d1 :: d2 :: d3 :: d4 :: ltS := by
    rw [List.dropWhile_cons, show pyIsSpace ' ' = true from by decide]
    simp only [if_true]
    exact dropWhile_cons_false (digit_not_space hd1) _
  simp only [matchMonthYearAt]
  rw [htake, hdrop, hws, hr2]
  obtain ⟨c0, l0, rfl⟩ := List.exists_cons_of_ne_nil hne
  simp [hd]

/-- `re.search` on `<letters><space><4 digits><anything>` succeeds at the
leftmost position with those captures. -/
theorem searchMonthYear_exact {lm : List Char} {d1 d2 d3 d4 : Char}
    (ltS : List Char)
    (hne : lm ≠ [])
    (ha : lm.all isAsciiAlpha = true)
    (hd : ([d1, d2, d3, d4]).all isAsciiDigit = true) :
    searchMonthYear (lm ++ ' ' :: d1 :: d2 :: d3 :: d4 :: ltS)
      = some (lm, [d1, d2, d3, d4]) := by
  have hm := matchMonthYearAt_exact ltS hne ha hd
  obtain ⟨c0, l0, rfl⟩ := List.exists_cons_of_ne_nil hne
  rw [List.cons_append, searchMonthYear, ← List.cons_append, hm]

/-- The preparation phase of `parse_release_date` on a well-formed
`"Released <Month> <4 digits><tail>"` input: the result is the lowered month
word, one space, the four digits, and the lowered end-stripped tail. -/
theorem prepDate_shape (m t : String) (d1 d2 d3 d4 : Char)
    (hm : m.toList ≠ [])
    (hma : m.toList.all isAsciiAlpha = true)
    (hd : ([d1, d2, d3, d4]).all isAsciiDigit = true) :
    (prepDate ("Released " ++ m ++ " " ++ (⟨[d1, d2, d3, d4]⟩ : String) ++ t)).toList
      = m.toList.map Char.toLower ++ ' ' :: d1 :: d2 :: d3 :: d4 ::
          stripEnd (t.toList.map Char.toLower) := by
  have hd4 : isAsciiDigit d4 = true := by
    simp only [List.all_cons, List.all_nil, Bool.and_eq_true, and_true] at hd
    exact hd.2.2.2
  have hds : [d1, d2, d3, d4].map Char.toLower = [d1, d2, d3, d4] :=
    map_toLower_digits hd
  have hlm_ne : m.toList.map Char.toLower ≠ [] := by
    simpa using hm
  have hlm_alpha : (m.toList.map Char.toLower).all isAsciiAlpha = true :=
    all_toLower_alpha hma
  have h1 : (pyLower ("Released " ++ m ++ " " ++ (⟨[d1, d2, d3, d4]⟩ : String) ++ t)).toList
      = "released ".toList ++ (m.toList.map Char.toLower ++ ' ' :: d1 :: d2 :: d3 :: d4 ::
          (t.toList.map Char.toLower)) := by
    simp only [pyLower, toList_mk, toList_append, List.map_append]
    rw [hds, show ("Released ".toList.map Char.toLower) = "released ".toList from by decide,
      show (" ".toList.map Char.toLower) = [' '] from by decide]
    simp
  have hlast : ("released ".toList ++ (m.toList.map Char.toLower ++
      [' ', d1, d2, d3, d4])).getLast? = some d4 := by
    rw [← List.head?_reverse]
    simp [List.reverse_append]
  have hstrip : (pyStrip (pyLower ("Released " ++ m ++ " " ++
      (⟨[d1, d2, d3, d4]⟩ : String) ++ t))).toList
      = "released ".toList ++ ((m.toList.map Char.toLower ++ [' ', d1, d2, d3, d4]) ++
          stripEnd (t.toList.map Char.toLower)) := by
    show stripChars (pyLower ("Released " ++ m ++ " " ++
      (⟨[d1, d2, d3, d4]⟩ : String) ++ t)).toList = _
    rw [h1]
    unfold stripChars
    rw [show "released ".toList = 'r' :: "eleased ".toList from rfl, List.cons_append,
      dropWhile_cons_false (show pyIsSpace 'r' = false from by decide),
      ← List.cons_append, show 'r' :: "eleased ".toList = "released ".toList from rfl]
    rw [show "released ".toList ++ (m.toList.map Char.toLower ++ ' ' :: d1 :: d2 :: d3 ::
        d4 :: (t.toList.map Char.toLower))
      = ("released ".toList ++ (m.toList.map Char.toLower ++ [' ', d1, d2, d3, d4])) ++
          (t.toList.map Char.toLower) from by simp]
    rw [stripEnd_append_last hlast (digit_not_space hd4)]
    simp
  have hlast2 : (m.toList.map Char.toLower ++ [' ', d1, d2, d3, d4]).getLast?
      = some d4 := by
    rw [← List.head?_reverse]
    simp [List.reverse_append]
  obtain ⟨c0, l0, hlm⟩ := List.exists_cons_of_ne_nil hlm_ne
  have hc0 : pyIsSpace c0 = false := by
    have : (c0 :: l0).all isAsciiAlpha = true := by
      rw [← hlm]
      exact hlm_alpha
    simp only [List.all_cons, Bool.and_eq_true] at this
    exact alpha_not_space this.1
  simp only [prepDate]
  rw [hstrip, isPrefixOf_append_self, if_pos rfl]
  show stripChars (("released ".toList ++ ((m.toList.map Char.toLower ++
      [' ', d1, d2, d3, d4]) ++ stripEnd (t.toList.map Char.toLower))).drop 9) = _
  rw [show (9 : Nat) = ("released ".toList).length from rfl, List.drop_left]
  unfold stripChars
  rw [show (m.toList.map Char.toLower ++ [' ', d1, d2, d3, d4]) ++
      stripEnd (t.toList.map Char.toLower)
    = c0 :: (l0 ++ [' ', d1, d2, d3, d4] ++ stripEnd (t.toList.map Char.toLower))
    from by rw [hlm]; simp]
  rw [dropWhile_cons_false hc0]
  rw [show c0 :: (l0 ++ [' ', d1, d2, d3, d4] ++ stripEnd (t.toList.map Char.toLower))
    = (m.toList.map Char.toLower ++ [' ', d1, d2, d3, d4]) ++
        stripEnd (t.toList.map Char.toLower) from by rw [hlm]; simp]
  rw [stripEnd_append_last hlast2 (digit_not_space hd4), stripEnd_idem]
  simp

/-- **C6**: for every input of the shape `"Released <Month> <4-digit year><tail>"`
with an alphabetic month word recognised (case-insensitively) by the 12-entry
month table and a year of at least 1, `parse_release_date` returns the first
day of that month formatted `YYYY-MM-01`; when the searched word is not a
recognised month name, or no `<word> <4 digits>` occurrence exists in the
prepared text (missing year), it returns absent — e.g. `"released Marchy 2020"`
and `"Released March"` both yield `none`. -/
theorem C6_date_normalizer (m t : String) (mo : Nat) (d1 d2 d3 d4 : Char)
    (hm : m.toList ≠ [])
    (hma : m.toList.all isAsciiAlpha = true)
    (hmo : lookupMonth (pyLower m) = some mo)
    (hd : ([d1, d2, d3, d4]).all isAsciiDigit = true)
    (hy : 1 ≤ natOfDigits [d1, d2, d3, d4]) :
    (parse_release_date ("Released " ++ m ++ " " ++ (⟨[d1, d2, d3, d4]⟩ : String) ++ t)
        = some (padNat 4 (natOfDigits [d1, d2, d3, d4]) ++ "-" ++ padNat 2 mo ++ "-01"))
    ∧ (∀ s w ds, searchMonthYear (prepDate s).toList = some (w, ds) →
        lookupMonth (pyLower ⟨w⟩) = none → parse_release_date s = none)
    ∧ (∀ s, searchMonthYear (prepDate s).toList = none → parse_release_date s = none)
    ∧ parse_release_date "released Marchy 2020" = none
    ∧ parse_release_date "Released March" = none := by
  refine ⟨?_, ?_, ?_, by decide, by decide⟩
  · have hlm_ne : m.toList.map Char.toLower ≠ [] := by simpa using hm
    have hlm_alpha : (m.toList.map Char.toLower).all isAsciiAlpha = true :=
      all_toLower_alpha hma
    have hne : ("Released " ++ m ++ " " ++ (⟨[d1, d2, d3, d4]⟩ : String) ++ t) ≠ "" := by
      intro h
      have h2 := congrArg String.toList h
      rw [toList_append, toList_append, toList_append, toList_append,
        show "Released ".toList = 'R' :: "eleased ".toList from rfl,
        List.cons_append] at h2
      simp at h2
    have hLO : lookupMonth (pyLower ⟨m.toList.map Char.toLower⟩) = some mo := by
      show lookupMonth ⟨(m.toList.map Char.toLower).map Char.toLower⟩ = some mo
      rw [map_toLower_idem]
      exact hmo
    simp only [parse_release_date]
    rw [if_neg hne, prepDate_shape m t d1 d2 d3 d4 hm hma hd,
      searchMonthYear_exact (stripEnd (t.toList.map Char.toLower)) hlm_ne hlm_alpha hd]
    simp only [hLO]
    rw [if_pos ⟨hy, natOfDigits_four_le hd⟩]
  · intro s w ds hs hl
    by_cases he : s = ""
    · simp [parse_release_date, he]
    · simp only [parse_release_date, if_neg he]
      rw [hs]
      simp only [hl]
  · intro s hsn
    by_cases he : s = ""
    · simp [parse_release_date, he]
    · simp only [parse_release_date, if_neg he]
      rw [hsn]

/-- Witness for `C6_date_normalizer`: the spec's own example pair. -/
theorem C6_witness :
    parse_release_date "Released March 2020" = some "2020-03-01" ∧
    parse_release_date "released Marchy 2020" = none := by
  have h := C6_date_normalizer "March" "" 3 '2' '0' '2' '0' (by decide) (by decide)
      (by decide) (by decide) (by decide)
  constructor
  · have h1 := h.1
    rw [(by decide : ("Released " ++ "March" ++ " " ++ (⟨['2', '0', '2', '0']⟩ : String)
        ++ "") = "Released March 2020")] at h1
    rw [(by decide : (padNat 4 (natOfDigits ['2', '0', '2', '0']) ++ "-" ++ padNat 2 3
        ++ "-01") = "2020-03-01")] at h1
    exact h1
  · exact h.2.2.2.1

end BigFinish
